import Mathlib

/-!
# Verification of GoFSH's CaretValueRuleExtractor and FSHExporter

A shallow embedding of `src/extractor/CaretValueRuleExtractor.ts` and
`src/export/FSHExporter.ts`.  JSON data is modelled by the inductive `JValue`;
JavaScript objects are ordered field lists (JS objects have unique keys, so
theorems assume key-uniqueness where the iteration order of mutated objects
matters).  External collaborators that are declared outside the two source
files (the value resolver `getFSHValue`, the emptiness predicate
`isFSHValueEmpty`, the renderers `toFSH` / `text-table`) are taken as explicit
function parameters; the path flattener `getPathValuePairs` is modelled from
the specification (see its doc comment).

JavaScript semantics used throughout:
* `cloneDeep` is the identity (values are immutable here);
* property access on a missing property yields `none` (undefined);
* `undefined === undefined` is `true`; `===` on two objects/arrays is
  reference equality, which is modelled as `false` (the compared values
  always come from two distinct JSON trees at the relevant call sites);
* lodash `isEqual` is structural equality of `JValue` (lodash ignores object
  key order; fields are modelled as ordered lists, on which structural
  equality coincides with lodash equality for like-ordered documents);
* reading a property of `undefined` would throw in JS; the model returns
  `none` and continues.  These states are unreachable for keys produced by
  the flattener and are not relied upon by any theorem.
-/

/-! ## Definitions -/

inductive JValue where
  | null : JValue
  | bool (b : Bool) : JValue
  | num (n : Int) : JValue
  | str (s : String) : JValue
  | arr (items : List JValue) : JValue
  | obj (fields : List (String × JValue)) : JValue
deriving Repr

mutual
def JValue.beq : JValue → JValue → Bool
  | .null, .null => true
  | .bool a, .bool b => a == b
  | .num a, .num b => a == b
  | .str a, .str b => a == b
  | .arr xs, .arr ys => JValue.beqList xs ys
  | .obj xs, .obj ys => JValue.beqFields xs ys
  | _, _ => false

def JValue.beqList : List JValue → List JValue → Bool
  | [], [] => true
  | a :: as, b :: bs => JValue.beq a b && JValue.beqList as bs
  | _, _ => false

def JValue.beqFields : List (String × JValue) → List (String × JValue) → Bool
  | [], [] => true
  | (k, a) :: as, (k', b) :: bs => k == k' && JValue.beq a b && JValue.beqFields as bs
  | _, _ => false
end

mutual
theorem JValue.beq_iff : ∀ (a b : JValue), JValue.beq a b = true ↔ a = b
  | .null, b => by cases b <;> simp [JValue.beq]
  | .bool a, b => by cases b <;> simp [JValue.beq]
  | .num a, b => by cases b <;> simp [JValue.beq]
  | .str a, b => by cases b <;> simp [JValue.beq]
  | .arr xs, b => by
      cases b <;> simp [JValue.beq]
      exact JValue.beqList_iff xs _
  | .obj xs, b => by
      cases b <;> simp [JValue.beq]
      exact JValue.beqFields_iff xs _

theorem JValue.beqList_iff : ∀ (as bs : List JValue), JValue.beqList as bs = true ↔ as = bs
  | [], bs => by cases bs <;> simp [JValue.beqList]
  | a :: as, bs => by
      cases bs with
      | nil => simp [JValue.beqList]
      | cons b bs =>
          simp [JValue.beqList, JValue.beq_iff a b, JValue.beqList_iff as bs]

theorem JValue.beqFields_iff :
    ∀ (as bs : List (String × JValue)), JValue.beqFields as bs = true ↔ as = bs
  | [], bs => by cases bs <;> simp [JValue.beqFields]
  | (k, a) :: as, bs => by
      cases bs with
      | nil => simp [JValue.beqFields]
      | cons b bs =>
          obtain ⟨k', v'⟩ := b
          simp [JValue.beqFields, JValue.beq_iff a v', JValue.beqFields_iff as bs, and_assoc]
end

instance : DecidableEq JValue := fun a b =>
  decidable_of_iff (JValue.beq a b = true) (JValue.beq_iff a b)

/-- JS property access `v[k]` on an object; `none` models `undefined`. -/
def jGet (v : JValue) (k : String) : Option JValue :=
  match v with
  | .obj fields => List.lookup k fields
  | _ => none

/-- Optional-chained JS property access `o?.[k]`. -/
def jGetOpt (o : Option JValue) (k : String) : Option JValue :=
  o.bind (fun v => jGet v k)

/-- JS `delete v[k]` (JS objects have unique keys; all pairs named `k` go). -/
def jDelete (v : JValue) (k : String) : JValue :=
  match v with
  | .obj fields => .obj (fields.filter (fun f => f.1 ≠ k))
  | _ => v

/-- JS `Object.keys` (insertion order). -/
def jKeys : JValue → List String
  | .obj fields => fields.map (·.1)
  | _ => []

/-- JS strict equality `===` between two possibly-undefined values.
`undefined === undefined` is `true`; primitives compare by value; two
objects or arrays compare by reference, modelled as `false` (the operands
come from distinct JSON trees at every call site of the source). -/
def jsStrictEq : Option JValue → Option JValue → Bool
  | none, none => true
  | some .null, some .null => true
  | some (.bool a), some (.bool b) => a == b
  | some (.num a), some (.num b) => a == b
  | some (.str a), some (.str b) => a == b
  | _, _ => false

/-- lodash `isEqual` between two possibly-undefined values. -/
def isEqualOpt (a b : Option JValue) : Bool := a == b

/-- JS template-literal stringification `${x}` of a possibly-undefined value.
Arrays and objects use their JS `toString` forms only loosely (`id`s and
`name`s are strings in every FHIR document, so those cases never matter). -/
def jsToString : Option JValue → String
  | none => "undefined"
  | some .null => "null"
  | some (.bool b) => cond b "true" "false"
  | some (.num n) => toString n
  | some (.str s) => s
  | some (.arr _) => ""
  | some (.obj _) => "[object Object]"

/-- JS nullish coalescing `a ?? b`. -/
def jsNullish (a b : Option JValue) : Option JValue :=
  match a with
  | some .null => b
  | some v => some v
  | none => b

def dotJoin (pre k : String) : String :=
  if pre = "" then k else pre ++ "." ++ k

mutual
/-- Modelled from the spec: the external path flattener `getPathValuePairs`
("nested object → ordered sequence of (leaf-path, value) pairs, document
order preserved, array entries addressed as `prop[n]`"), declared in
`src/utils` which is outside the provided sources.  Leaves are the
non-container values; `null` leaves are treated as absent. -/
def flattenAt (pre : String) : JValue → List (String × JValue)
  | .null => []
  | .bool b => [(pre, .bool b)]
  | .num n => [(pre, .num n)]
  | .str s => [(pre, .str s)]
  | .arr items => flattenElems pre 0 items
  | .obj fields => flattenFields pre fields

/-- Array part of the flattener: entry `i` gets path `pre[i]`. -/
def flattenElems (pre : String) (i : Nat) : List JValue → List (String × JValue)
  | [] => []
  | v :: rest =>
      flattenAt (pre ++ "[" ++ toString i ++ "]") v ++ flattenElems pre (i + 1) rest

/-- Object part of the flattener: field `k` gets path `pre.k` (or `k` at top). -/
def flattenFields (pre : String) : List (String × JValue) → List (String × JValue)
  | [] => []
  | (k, v) :: rest => flattenAt (dotJoin pre k) v ++ flattenFields pre rest
end

/-- Modelled from the spec: `getPathValuePairs` applied to a whole document. -/
def getPathValuePairs (v : JValue) : List (String × JValue) :=
  flattenAt "" v

/-- Boolean list-prefix test on characters. -/
def isPre : List Char → List Char → Bool
  | [], _ => true
  | _ :: _, [] => false
  | a :: as, b :: bs => a == b && isPre as bs

/-- Digit run to a natural number (JS `parseInt` on a digit-only string). -/
def digitsToNat (ds : List Char) : Nat :=
  ds.foldl (fun n c => n * 10 + (c.toNat - '0'.toNat)) 0

/-- One attempted match of the regex `name\[(\d+)]` at the start of `cs`:
returns the matched text and the parsed index. -/
def tryMatchAt (name : List Char) (cs : List Char) : Option (List Char × Nat) :=
  if isPre name cs then
    match cs.drop name.length with
    | '[' :: rest =>
        let ds := rest.takeWhile Char.isDigit
        match ds, rest.dropWhile Char.isDigit with
        | [], _ => none
        | _ :: _, ']' :: _ => some (name ++ '[' :: ds ++ [']'], digitsToNat ds)
        | _ :: _, _ => none
    | _ => none
  else none

/-- Left-to-right scan of the regex `name\[(\d+)]` (JS `String.match`). -/
def scanPat (name : List Char) : List Char → Option (List Char × Nat)
  | [] => none
  | c :: rest => (tryMatchAt name (c :: rest)).orElse (fun _ => scanPat name rest)

/-- JS `key.match(/name\[(\d+)]/)`: the whole matched text and the captured
index of the first match, if any (`name` holds no regex metacharacters). -/
def matchIdxPattern (name key : String) : Option (String × Nat) :=
  (scanPat name.data key.data).map (fun r => (String.mk r.1, r.2))

/-- Replace the first occurrence of `pat` in a character list (JS
`String.replace` with a plain-string pattern). -/
def replaceFirstChars (pat repl : List Char) : List Char → List Char
  | [] => if isPre pat [] then repl else []
  | c :: rest =>
      if isPre pat (c :: rest) then repl ++ (c :: rest).drop pat.length
      else c :: replaceFirstChars pat repl rest

/-- JS `s.replace(pat, repl)` for a plain-string `pat` (first occurrence only). -/
def strReplaceFirst (s pat repl : String) : String :=
  String.mk (replaceFirstChars pat.data repl.data s.data)

/-- JS `s.indexOf(pat)`; `none` models `-1`. -/
def charsIndexOfAux (pat : List Char) : List Char → Nat → Option Nat
  | [], i => if isPre pat [] then some i else none
  | c :: rest, i => if isPre pat (c :: rest) then some i else charsIndexOfAux pat rest (i + 1)

/-- JS `s.indexOf(pat)`; `none` models `-1`. -/
def strIndexOf (s pat : String) : Option Nat :=
  charsIndexOfAux pat.data s.data 0

/-- `ExportableCaretValueRule` as used by the two source files: `path` is the
rule's target element path, `caretPath` the arbitrary property path, `value`
the resolved DSL literal, `fshComment` an optional warning comment,
`isCodeCaretRule`/`pathArray` the concept scoping, and `isInstance` the
instance-reference flag consulted by the exporter. -/
structure ExportableCaretValueRule where
  path : String
  caretPath : String := ""
  value : String := ""
  fshComment : Option String := none
  isCodeCaretRule : Bool := false
  pathArray : List String := []
  isInstance : Bool := false
deriving DecidableEq, Repr

inductive LogLevel where
  | info
  | warn
  | error
deriving DecidableEq, Repr

/-- One logger call: level and message. -/
abbrev LogEntry := LogLevel × String

/-- `ProcessableElementDefinition`: its JSON form (`toJSON`) and the paths
already claimed by other extractors. -/
structure ProcessableElementDefinition where
  json : JValue
  processedPaths : List String

/-- `ProcessableStructureDefinition`: the owning resource's name and its
optional snapshot element array (`snapshot?.element`). -/
structure ProcessableStructureDefinition where
  name : String
  snapshotElements : Option (List JValue)

/-- The configuration; only the canonical URL base is consulted. -/
structure Configuration where
  canonical : String

/-- The guard `structDef?.snapshot?.element?.length > 0`. -/
def snapshotNonempty (structDef : ProcessableStructureDefinition) : Bool :=
  match structDef.snapshotElements with
  | some els => decide (els.length > 0)
  | none => false

/-- The alternate choice-type id syntax: split the id on `.` and strip each
segment through its `[x]:` marker (`p.slice(i + 4)`), then rejoin. -/
def altChoiceSyntax (id : String) : String :=
  String.intercalate "." ((id.splitOn ".").map (fun p =>
    match strIndexOf p "[x]:" with
    | some i => String.mk (p.data.drop (i + 4))
    | none => p))

/-- `findMatchingSnapshot(differentialId, structDef)`: the first snapshot
element whose id strictly equals the differential id, or — when the element
id holds a `[x]:` marker at a positive index — whose alternate choice-type
syntax equals the differential id. -/
def findMatchingSnapshot (differentialId : Option JValue)
    (structDef : ProcessableStructureDefinition) : Option JValue :=
  match structDef.snapshotElements with
  | none => none
  | some els =>
      els.find? (fun el =>
        if jsStrictEq (jGet el "id") differentialId then true
        else
          match jGet el "id" with
          | some (.str idStr) =>
              match strIndexOf idStr "[x]:" with
              | some i =>
                  if i > 0 then
                    jsStrictEq (some (.str (altChoiceSyntax idStr))) differentialId
                  else false
              | none => false
          | _ => false)

/-- The warning comment attached when a constraint index cannot be adjusted. -/
def constraintWarnComment (matched : String) : String :=
  "WARNING: The constraint index in the following rule (e.g., " ++ matched ++
    ") may be incorrect.\n" ++
    "Please compare with the constraint array in the original definition's snapshot and adjust as necessary."

/-- The warning logged when a constraint index cannot be adjusted. -/
def constraintWarnLog (sdName path key : String) : String :=
  "Could not calculate correct constraint index relative to the snapshot for the following path in " ++
    sdName ++ ": " ++ path ++ " ^" ++ key ++
    ". To resolve this issue, run GoFSH on definitions that include valid snapshots; otherwise check and fix " ++
    "constraint indices in the generated FSH files as necessary."

/-- The warning comment attached when a mapping index cannot be adjusted. -/
def mappingWarnComment (matched : String) : String :=
  "WARNING: The mapping index in the following rule (e.g., " ++ matched ++
    ") may be incorrect.\n" ++
    "Please compare with the mapping array in the original definition's snapshot and adjust as necessary."

/-- The warning logged when a mapping index cannot be adjusted. -/
def mappingWarnLog (sdName path key : String) : String :=
  "Could not calculate correct mapping index relative to the snapshot for the following path in " ++
    sdName ++ ": " ++ path ++ " ^" ++ key ++
    ". To resolve this issue, run GoFSH on definitions that include valid snapshots; otherwise check and fix " ++
    "mapping indices in the generated FSH files as necessary."

/-- `inputJSON.constraint[n]` (undefined when absent or out of range). -/
def diffConstraintAt (inputJSON : JValue) (n : Nat) : Option JValue :=
  match jGet inputJSON "constraint" with
  | some (.arr cs) => cs.get? n
  | _ => none

/-- `inputJSON.constraint[n].key`. -/
def diffConstraintKey (inputJSON : JValue) (n : Nat) : Option JValue :=
  jGetOpt (diffConstraintAt inputJSON n) "key"

/-- The new snapshot-relative constraint index: `undefined` (`none`) when the
snapshot guard fails, no snapshot element matches, or the matched element
carries no constraint array; otherwise the result of `findIndex`, which is
`-1` when no snapshot constraint's `key` strictly equals the differential
constraint's `key`. -/
def newConstraintIndex (inputJSON : JValue)
    (structDef : ProcessableStructureDefinition) (n : Nat) : Option Int :=
  if snapshotNonempty structDef then
    match findMatchingSnapshot (jGet inputJSON "id") structDef with
    | none => none
    | some snapElement =>
        match jGet snapElement "constraint" with
        | some (.arr cs) =>
            some (match cs.findIdx? (fun c =>
                jsStrictEq (jGet c "key") (diffConstraintKey inputJSON n)) with
              | some idx => (idx : Int)
              | none => -1)
        | _ => none
  else none

/-- `inputJSON.mapping[n]` (undefined when absent or out of range). -/
def diffMappingAt (inputJSON : JValue) (n : Nat) : Option JValue :=
  match jGet inputJSON "mapping" with
  | some (.arr ms) => ms.get? n
  | _ => none

/-- The new snapshot-relative mapping index; exactly as for constraints but
with lodash `isEqual` of the whole mapping entry as the correspondence. -/
def newMappingIndex (inputJSON : JValue)
    (structDef : ProcessableStructureDefinition) (n : Nat) : Option Int :=
  if snapshotNonempty structDef then
    match findMatchingSnapshot (jGet inputJSON "id") structDef with
    | none => none
    | some snapElement =>
        match jGet snapElement "mapping" with
        | some (.arr ms) =>
            some (match ms.findIdx? (fun m =>
                isEqualOpt (some m) (diffMappingAt inputJSON n)) with
              | some idx => (idx : Int)
              | none => -1)
        | _ => none
  else none

/-- The `constraint[n]` fix-up block of `CaretValueRuleExtractor.process`. -/
def fixConstraintBlock (inputJSON : JValue) (structDef : ProcessableStructureDefinition)
    (path key : String) (rule : ExportableCaretValueRule) :
    ExportableCaretValueRule × List LogEntry :=
  match matchIdxPattern "constraint" key with
  | none => (rule, [])
  | some (matched, n) =>
      match newConstraintIndex inputJSON structDef n with
      | some ni =>
          ({ rule with caretPath := strReplaceFirst key matched ("constraint[" ++ toString ni ++ "]") }, [])
      | none =>
          ({ rule with fshComment := some (constraintWarnComment matched) },
            [(.warn, constraintWarnLog structDef.name path key)])

/-- The `mapping[n]` fix-up block of `CaretValueRuleExtractor.process`; note
that, as in the source, the replacement is applied to the original `key`. -/
def fixMappingBlock (inputJSON : JValue) (structDef : ProcessableStructureDefinition)
    (path key : String) (rule : ExportableCaretValueRule) :
    ExportableCaretValueRule × List LogEntry :=
  match matchIdxPattern "mapping" key with
  | none => (rule, [])
  | some (matched, n) =>
      match newMappingIndex inputJSON structDef n with
      | some ni =>
          ({ rule with caretPath := strReplaceFirst key matched ("mapping[" ++ toString ni ++ "]") }, [])
      | none =>
          ({ rule with fshComment := some (mappingWarnComment matched) },
            [(.warn, mappingWarnLog structDef.name path key)])

/-- The body of the `remainingFlatElementArray.forEach` loop of
`CaretValueRuleExtractor.process` for the entry `key` at position `i`:
the produced rule (if any) and the logger calls. -/
def processEntry (inputJSON : JValue) (structDef : ProcessableStructureDefinition)
    (path : String) (getFSHValue : Nat → List (String × JValue) → String)
    (isFSHValueEmpty : String → Bool) (remaining : List (String × JValue))
    (i : Nat) (key : String) : Option ExportableCaretValueRule × List LogEntry :=
  let value := getFSHValue i remaining
  if isFSHValueEmpty value then
    (none,
      [(.error, "Value in StructureDefinition " ++ structDef.name ++ " for element " ++
        path ++ "." ++ key ++ " is empty. No caret value rule will be created.")])
  else
    let rule0 : ExportableCaretValueRule := { path := path, caretPath := key, value := value }
    let r1 := fixConstraintBlock inputJSON structDef path key rule0
    let r2 := fixMappingBlock inputJSON structDef path key r1.1
    (some r2.1, r1.2 ++ r2.2)

/-- The filtered leaf entries of an element: its flattening minus the
already-processed paths (after pushing `id` and `path`). -/
def remainingFlatElementArray (input : ProcessableElementDefinition) :
    List (String × JValue) :=
  (getPathValuePairs input.json).filter
    (fun kv => !((input.processedPaths ++ ["id", "path"]).contains kv.1))

/-- `CaretValueRuleExtractor.process(input, structDef, fisher)`.  `path`
stands for the external `getPath(input)`; `getFSHValue` and
`isFSHValueEmpty` are the external value resolver (with its constant
`'ElementDefinition'`/`fisher` arguments folded in) and emptiness test. -/
def process (input : ProcessableElementDefinition)
    (structDef : ProcessableStructureDefinition) (path : String)
    (getFSHValue : Nat → List (String × JValue) → String)
    (isFSHValueEmpty : String → Bool) :
    List ExportableCaretValueRule × List LogEntry :=
  let remaining := remainingFlatElementArray input
  let results := remaining.enum.map (fun iv =>
    processEntry input.json structDef path getFSHValue isFSHValueEmpty remaining iv.1 iv.2.1)
  (results.filterMap (·.1), results.flatMap (·.2))

/-- `RESOURCE_IGNORED_PROPERTIES['ValueSet']`. -/
def VALUESET_IGNORED_PROPERTIES : List String :=
  ["resourceType", "id", "name", "title", "description", "compose.include", "compose.exclude"]

/-- `RESOURCE_IGNORED_PROPERTIES['CodeSystem']`. -/
def CODESYSTEM_IGNORED_PROPERTIES : List String :=
  ["resourceType", "id", "name", "title", "description", "concept"]

/-- `RESOURCE_IGNORED_PROPERTIES['StructureDefinition']`. -/
def SD_IGNORED_PROPERTIES : List String :=
  ["resourceType", "id", "name", "title", "description", "fhirVersion", "mapping",
    "baseDefinition", "derivation", "snapshot", "differential"]

/-- `CONCEPT_IGNORED_PROPERTIES`. -/
def CONCEPT_IGNORED_PROPERTIES : List String :=
  ["code", "display", "definition", "concept"]

/-- `SD_CLEARED_PROPERTIES`: the properties SUSHI clears before creating a
profile, deleted from the parent copy only. -/
def SD_CLEARED_PROPERTIES : List String :=
  ["meta", "implicitRules", "language", "text", "contained", "identifier",
    "experimental", "date", "publisher", "contact", "useContext", "jurisdiction",
    "purpose", "copyright", "keyword"]

/-- `CaretValueRuleExtractor.isStandardURL(resourceType, config, input)`:
`input.url == config.canonical + '/' + resourceType + '/' + input.id`.
FHIR `url` values are strings; JS loose equality's numeric coercion for a
non-string `url` is not modelled (such a `url` compares unequal). -/
def isStandardURL (resourceType : String) (config : Configuration) (input : JValue) : Bool :=
  match jGet input "url" with
  | some (.str u) => u == config.canonical ++ "/" ++ resourceType ++ "/" ++ jsToString (jGet input "id")
  | _ => false

/-- The parent-resolution warning of `processStructureDefinition`. -/
def parentWarnLog (sd : JValue) : String :=
  "Cannot reliably export top-level caret rules for " ++ jsToString (jGet sd "name") ++
    " because GoFSH cannot find a definition for its parent: " ++
    jsToString (jGet sd "baseDefinition") ++
    ". If its parent is from another IG, run GoFSH again declaring that IG as a dependency."

/-- `hasNewItems` for one top-level array `xs` of the resource against the
parent's value at the same key: `differenceWith(xs, parent[key], isEqual)`
is non-empty, or the parent's value is not an array at all. -/
def hasNewItemsFn (xs : List JValue) (parentVal : Option JValue) : Bool :=
  match parentVal with
  | some (.arr ys) => !(xs.filter (fun x => !(ys.any (fun y => y == x)))).isEmpty
  | _ => true

/-- One iteration of the array-massaging loop of
`processStructureDefinition` for the key `key`: delete the parent's array
when there are new items and the key is an extension carrier; delete the
resource's array when there are no new items; otherwise leave both. -/
def massageStep (acc : JValue × JValue) (key : String) : JValue × JValue :=
  match jGet acc.1 key with
  | some (.arr xs) =>
      if xs.isEmpty then acc
      else
        let hasNewItems := hasNewItemsFn xs (jGet acc.2 key)
        if hasNewItems && (key == "extension" || key == "modifierExtension") then
          (acc.1, jDelete acc.2 key)
        else if !hasNewItems then
          (jDelete acc.1 key, acc.2)
        else acc
  | _ => acc

/-- The array-massaging loop of `processStructureDefinition`
(`Object.keys(sd).forEach`, keys captured before the loop). -/
def massageArrays (sd parent : JValue) : JValue × JValue :=
  (jKeys sd).foldl massageStep (sd, parent)

/-- `sd.text?.status === 'generated'` on the resource copy. -/
def textGenerated (sd1 : JValue) : Bool :=
  jsStrictEq (jGetOpt (jGet sd1 "text") "status") (some (.str "generated"))

/-- The resource copy entering the array-massaging loop: the resource
minus the ignored properties, minus a generated narrative. -/
def sdPreMassage (input : JValue) : JValue :=
  let sd1 := SD_IGNORED_PROPERTIES.foldl jDelete input
  if textGenerated sd1 then jDelete sd1 "text" else sd1

/-- The parent copy entering the array-massaging loop: the fished parent
(or the resource itself when the parent cannot be found) minus the ignored
properties, minus a generated narrative, minus the SUSHI-cleared
properties. -/
def parentPreMassage (input : JValue) (fishResult : Option JValue) : JValue :=
  let sd1 := SD_IGNORED_PROPERTIES.foldl jDelete input
  let parent1 := SD_IGNORED_PROPERTIES.foldl jDelete (fishResult.getD input)
  let parent2 := if textGenerated sd1 then jDelete parent1 "text" else parent1
  SD_CLEARED_PROPERTIES.foldl jDelete parent2

/-- Steps 2-5 of `processStructureDefinition`: delete the ignored
properties from both copies, drop generated narrative text from both,
delete the SUSHI-cleared properties from the parent copy, then massage the
top-level arrays.  `fishResult` is the outcome of the external
`fisher.fishForFHIR(input.baseDefinition, ...)`; when it is `none` the
resource itself substitutes for its parent. -/
def prepareSDCopies (input : JValue) (fishResult : Option JValue) : JValue × JValue :=
  massageArrays (sdPreMassage input) (parentPreMassage input fishResult)

/-- The emission condition of the flat diff loop of
`processStructureDefinition`: the parent copy lacks the path, or the two
values are not `isEqual`, or the path is `status` with a value other than
`'active'`. -/
def sdEmitCondition (flatSD flatParent : List (String × JValue)) (key : String) : Bool :=
  (List.lookup key flatParent).isNone
    || !isEqualOpt (List.lookup key flatSD) (List.lookup key flatParent)
    || (key == "status" && !jsStrictEq (List.lookup key flatSD) (some (.str "active")))

/-- The body of the flat diff loop of `processStructureDefinition` for the
entry `key` at position `i`. -/
def emitSDEntry (input : JValue) (config : Configuration)
    (flatSD flatParent : List (String × JValue))
    (getFSHValue : Nat → List (String × JValue) → String)
    (isFSHValueEmpty : String → Bool) (i : Nat) (key : String) :
    Option ExportableCaretValueRule × List LogEntry :=
  if sdEmitCondition flatSD flatParent key then
    if key == "url" && isStandardURL "StructureDefinition" config input then
      (none, [])
    else
      let value := getFSHValue i flatSD
      if isFSHValueEmpty value then
        (none,
          [(.error, "Value in StructureDefinition " ++ jsToString (jGet input "name") ++
            " for element " ++ key ++ " is empty. No caret value rule will be created.")])
      else
        (some { path := "", caretPath := key, value := value }, [])
  else (none, [])

/-- `CaretValueRuleExtractor.processStructureDefinition(input, fisher, config)`. -/
def processStructureDefinition (input : JValue) (fishResult : Option JValue)
    (config : Configuration) (getFSHValue : Nat → List (String × JValue) → String)
    (isFSHValueEmpty : String → Bool) :
    List ExportableCaretValueRule × List LogEntry :=
  let fishLogs : List LogEntry :=
    match fishResult with
    | some _ => []
    | none => [(.warn, parentWarnLog input)]
  let prepared := prepareSDCopies input fishResult
  let flatSD := getPathValuePairs prepared.1
  let flatParent := getPathValuePairs prepared.2
  let results := flatSD.enum.map (fun iv =>
    emitSDEntry input config flatSD flatParent getFSHValue isFSHValueEmpty iv.1 iv.2.1)
  (results.filterMap (·.1), fishLogs ++ results.flatMap (·.2))

/-- Match the raw property name as a regex fragment against the start of
`s` (in the source the property name is spliced into the regex unescaped,
so its `.` characters act as wildcards); returns the unmatched remainder. -/
def wildMatch : List Char → List Char → Option (List Char)
  | [], s => some s
  | _ :: _, [] => none
  | p :: ps, c :: s => if p = '.' ∨ p = c then wildMatch ps s else none

/-- The optional `(\[\d+\])?` fragment: a bracketed digit run, returning
the remainder after the closing bracket. -/
def tryBracket (s : List Char) : Option (List Char) :=
  if s.head? = some '[' then
    let rest := s.tail
    let after := rest.dropWhile Char.isDigit
    if !(rest.takeWhile Char.isDigit).isEmpty ∧ after.head? = some ']' then
      some after.tail
    else none
  else none

/-- One attempted match of `property(\[\d+\])?\.` at the start of `s`:
match the property fragment, then the optional bracketed index, then a
literal dot (trying the bracket-free alternative as the regex engine would). -/
def ignoreRegexAt (prop : List Char) (s : List Char) : Bool :=
  (wildMatch prop s).elim false (fun rest =>
    (tryBracket rest).elim false (fun tail => tail.head? == some '.') ||
      rest.head? == some '.')

/-- `new RegExp(property + '(\\[\\d+\\])?\\.').test(key)`: an unanchored
left-to-right scan. -/
def ignoreRegexTest (prop : List Char) : List Char → Bool
  | [] => ignoreRegexAt prop []
  | c :: rest => ignoreRegexAt prop (c :: rest) || ignoreRegexTest prop rest

/-- The per-property exclusion test of `processResource`/`processConcept`:
`key === property || new RegExp(property + '(\\[\\d+\\])?\\.').test(key)`. -/
def ignoreMatches (prop key : String) : Bool :=
  key == prop || ignoreRegexTest prop.data key.data

/-- The filtered flat array of `processResource`: the flattening of the
resource minus the entries excluded by the per-kind ignore list. -/
def resourceFlatArray (input : JValue) (resourceType : String) : List (String × JValue) :=
  (getPathValuePairs input).filter
    (fun kv => !((if resourceType == "ValueSet" then VALUESET_IGNORED_PROPERTIES
      else CODESYSTEM_IGNORED_PROPERTIES).any (fun p => ignoreMatches p kv.1)))

/-- `CaretValueRuleExtractor.processResource(input, fisher, resourceType, config)`;
`resourceType` is `"ValueSet"` or `"CodeSystem"` and selects the ignore list. -/
def processResource (input : JValue) (resourceType : String) (config : Configuration)
    (getFSHValue : Nat → List (String × JValue) → String)
    (isFSHValueEmpty : String → Bool) :
    List ExportableCaretValueRule × List LogEntry :=
  let flatArray := resourceFlatArray input resourceType
  let results := flatArray.enum.map (fun iv =>
    let key := iv.2.1
    if key == "url" && isStandardURL resourceType config input then
      (none, [])
    else
      let value := getFSHValue iv.1 flatArray
      if isFSHValueEmpty value then
        (none,
          [(.error, "Value in " ++ resourceType ++ " " ++
            jsToString (jsNullish (jGet input "name") (jGet input "id")) ++
            " for element " ++ key ++ " is empty. No caret value rule will be created.")])
      else
        (some { path := "", caretPath := key, value := value }, []))
  (results.filterMap (·.1), results.flatMap (·.2))

/-- The filtered flat array of `processConcept`. -/
def conceptFlatArray (input : JValue) : List (String × JValue) :=
  (getPathValuePairs input).filter
    (fun kv => !(CONCEPT_IGNORED_PROPERTIES.any (fun p => ignoreMatches p kv.1)))

/-- `CaretValueRuleExtractor.processConcept(input, conceptHierarchy,
codeSystemName, fisher)`. -/
def processConcept (input : JValue) (conceptHierarchy : List String)
    (codeSystemName : String) (getFSHValue : Nat → List (String × JValue) → String)
    (isFSHValueEmpty : String → Bool) :
    List ExportableCaretValueRule × List LogEntry :=
  let flatArray := conceptFlatArray input
  let results := flatArray.enum.map (fun iv =>
    let key := iv.2.1
    let value := getFSHValue iv.1 flatArray
    let rule : ExportableCaretValueRule :=
      { path := "", caretPath := key, value := value,
        isCodeCaretRule := true, pathArray := conceptHierarchy }
    if isFSHValueEmpty value then
      (none,
        [(.error, "Value in CodeSytem " ++ codeSystemName ++ " at concept " ++
          String.intercalate "." conceptHierarchy ++ " for element " ++ rule.caretPath ++
          " is empty. No caret value rule will be created.")])
    else
      (some rule, []))
  (results.filterMap (·.1), results.flatMap (·.2))

/-- `ExportableAssignmentRule`: only the fields the exporter consults. -/
structure ExportableAssignmentRule where
  isInstance : Bool := false
  value : String := ""
deriving DecidableEq, Repr

/-- `ExportableObeysRule`: only the fields the exporter consults. -/
structure ExportableObeysRule where
  keys : List String := []
deriving DecidableEq, Repr

/-- The rule variants the exporter distinguishes by `instanceof`; every
other rule class is `other`. -/
inductive ExportableRule where
  | assignment (r : ExportableAssignmentRule)
  | caret (r : ExportableCaretValueRule)
  | obeys (r : ExportableObeysRule)
  | other
deriving DecidableEq, Repr

structure ExportableProfile where
  name : String
  rules : List ExportableRule := []
deriving DecidableEq, Repr

structure ExportableExtension where
  name : String
  rules : List ExportableRule := []
deriving DecidableEq, Repr

structure ExportableInstance where
  name : String
  usage : String := ""
  instanceOf : String := ""
  rules : List ExportableRule := []
deriving DecidableEq, Repr

structure ExportableInvariant where
  name : String
deriving DecidableEq, Repr

structure ExportableMapping where
  name : String
deriving DecidableEq, Repr

structure ExportableCodeSystem where
  name : String
deriving DecidableEq, Repr

structure ExportableValueSet where
  name : String
deriving DecidableEq, Repr

/-- `ExportableAlias` (its `alias`/`url` payload is only ever rendered). -/
structure ExportableAlias where
  aliasId : String := ""
  url : String := ""
deriving DecidableEq, Repr

/-- The `Exportable` union, tagged by concrete class. -/
inductive Exportable where
  | alias (a : ExportableAlias)
  | profile (p : ExportableProfile)
  | extension (e : ExportableExtension)
  | codeSystem (c : ExportableCodeSystem)
  | valueSet (v : ExportableValueSet)
  | inst (i : ExportableInstance)
  | invariant (i : ExportableInvariant)
  | mapping (m : ExportableMapping)
deriving DecidableEq, Repr

/-- `exportable instanceof ExportableAlias`. -/
def Exportable.isAlias : Exportable → Bool
  | .alias _ => true
  | _ => false

/-- The `name` of a named exportable (aliases never reach a use of this). -/
def Exportable.name : Exportable → String
  | .alias a => a.aliasId
  | .profile p => p.name
  | .extension e => e.name
  | .codeSystem c => c.name
  | .valueSet v => v.name
  | .inst i => i.name
  | .invariant i => i.name
  | .mapping m => m.name

/-- `exportable.constructor.name.replace('Exportable', '')`. -/
def Exportable.typeLabel : Exportable → String
  | .alias _ => "Alias"
  | .profile _ => "Profile"
  | .extension _ => "Extension"
  | .codeSystem _ => "CodeSystem"
  | .valueSet _ => "ValueSet"
  | .inst _ => "Instance"
  | .invariant _ => "Invariant"
  | .mapping _ => "Mapping"

/-- The rule list of an exportable that is an `ExportableInstance`,
`ExportableProfile` or `ExportableExtension`; `none` for every other tag
(the `filter` of `inlineInstanceUsedIn`). -/
def Exportable.scannedRules : Exportable → Option (List ExportableRule)
  | .inst i => some i.rules
  | .profile p => some p.rules
  | .extension e => some e.rules
  | _ => none

/-- An assignment- or caret-type rule flagged as an instance reference whose
value is the given name. -/
def ExportableRule.isInstanceRefTo (name : String) : ExportableRule → Bool
  | .assignment r => r.isInstance && r.value == name
  | .caret r => r.isInstance && r.value == name
  | _ => false

/-- An obeys-type rule whose `keys` include the given invariant name. -/
def ExportableRule.obeysRefTo (name : String) : ExportableRule → Bool
  | .obeys o => o.keys.contains name
  | _ => false

/-- The `Package` aggregate (the categories the exporter reads). -/
structure Package where
  aliases : List ExportableAlias := []
  profiles : List ExportableProfile := []
  extensions : List ExportableExtension := []
  codeSystems : List ExportableCodeSystem := []
  valueSets : List ExportableValueSet := []
  instances : List ExportableInstance := []
  invariants : List ExportableInvariant := []
  mappings : List ExportableMapping := []
deriving DecidableEq, Repr

/-- JS `Map.prototype.set`: update in place if the key exists, else append. -/
def jsMapSet {α : Type} (m : List (String × α)) (k : String) (v : α) :
    List (String × α) :=
  if m.any (fun e => e.1 == k) then m.map (fun e => if e.1 == k then (k, v) else e)
  else m ++ [(k, v)]

/-- JS `Map.prototype.has`. -/
def jsMapHas {α : Type} (m : List (String × α)) (k : String) : Bool :=
  m.any (fun e => e.1 == k)

/-- `files.get(k).push(x)`: append to the entry's array in place.  Call
sites guarantee the key is present (JS would throw otherwise). -/
def jsMapPush (m : List (String × List Exportable)) (k : String) (x : Exportable) :
    List (String × List Exportable) :=
  m.map (fun e => if e.1 == k then (e.1, e.2 ++ [x]) else e)

/-- The grouping maps produced by the four strategies. -/
abbrev FileMap := List (String × List Exportable)

/-- `FSHExporter.groupAsSingleFile`. -/
def groupAsSingleFile (pkg : Package) : FileMap :=
  jsMapSet [] "resources.fsh"
    (pkg.aliases.map .alias ++ pkg.profiles.map .profile ++ pkg.extensions.map .extension ++
      pkg.codeSystems.map .codeSystem ++ pkg.valueSets.map .valueSet ++
      pkg.instances.map .inst ++ pkg.invariants.map .invariant ++ pkg.mappings.map .mapping)

/-- `FSHExporter.groupAsFilePerDefinition`. -/
def groupAsFilePerDefinition (pkg : Package) : FileMap :=
  let files := jsMapSet ([] : FileMap) "aliases.fsh" (pkg.aliases.map .alias)
  let files := pkg.invariants.foldl
    (fun m i => jsMapSet m (i.name ++ "-Invariant.fsh") [.invariant i]) files
  let files := pkg.mappings.foldl
    (fun m i => jsMapSet m (i.name ++ "-Mapping.fsh") [.mapping i]) files
  let files := pkg.profiles.foldl
    (fun m i => jsMapSet m (i.name ++ "-Profile.fsh") [.profile i]) files
  let files := pkg.extensions.foldl
    (fun m i => jsMapSet m (i.name ++ "-Extension.fsh") [.extension i]) files
  let files := pkg.codeSystems.foldl
    (fun m i => jsMapSet m (i.name ++ "-CodeSystem.fsh") [.codeSystem i]) files
  let files := pkg.valueSets.foldl
    (fun m i => jsMapSet m (i.name ++ "-ValueSet.fsh") [.valueSet i]) files
  pkg.instances.foldl
    (fun m i => jsMapSet m (i.name ++ "-Instance.fsh") [.inst i]) files

/-- `FSHExporter.groupByFSHType`. -/
def groupByFSHType (pkg : Package) : FileMap :=
  let files := jsMapSet ([] : FileMap) "aliases.fsh" (pkg.aliases.map .alias)
  let files := jsMapSet files "profiles.fsh" (pkg.profiles.map .profile)
  let files := jsMapSet files "extensions.fsh" (pkg.extensions.map .extension)
  let files := jsMapSet files "valueSets.fsh" (pkg.valueSets.map .valueSet)
  let files := jsMapSet files "codeSystems.fsh" (pkg.codeSystems.map .codeSystem)
  let files := jsMapSet files "instances.fsh" (pkg.instances.map .inst)
  let files := jsMapSet files "invariants.fsh" (pkg.invariants.map .invariant)
  jsMapSet files "mappings.fsh" (pkg.mappings.map .mapping)

/-- `FSHExporter.inlineInstanceUsedIn`: the file names, one per matching
rule occurrence, scanning instances, profiles and extensions present in the
map at call time. -/
def inlineInstanceUsedIn (inlineInstance : ExportableInstance) (files : FileMap) :
    List String :=
  files.flatMap (fun fe =>
    (fe.2.filterMap Exportable.scannedRules).flatMap (fun rules =>
      (rules.filter (ExportableRule.isInstanceRefTo inlineInstance.name)).map (fun _ => fe.1)))

/-- `FSHExporter.invariantUsedIn`: the file names, one per matching obeys
rule occurrence, scanning profiles present in the map. -/
def invariantUsedIn (invariant : ExportableInvariant) (files : FileMap) : List String :=
  files.flatMap (fun fe =>
    (fe.2.filterMap (fun e => match e with | .profile p => some p.rules | _ => none)).flatMap
      (fun rules =>
        (rules.filter (ExportableRule.obeysRefTo invariant.name)).map (fun _ => fe.1)))

/-- Placement of one non-inline instance in `groupByProfile`. -/
def placeNonInline (files : FileMap) (ins : ExportableInstance) : FileMap :=
  if ins.usage == "Example" && jsMapHas files (ins.instanceOf ++ ".fsh") then
    jsMapPush files (ins.instanceOf ++ ".fsh") (.inst ins)
  else jsMapPush files "instances.fsh" (.inst ins)

/-- Placement of one inline instance in `groupByProfile`:
`usedIn.length === 1 ? files.get(usedIn[0]).push(i) : files.get('instances.fsh').push(i)`. -/
def placeInline (files : FileMap) (ins : ExportableInstance) : FileMap :=
  match inlineInstanceUsedIn ins files with
  | [f] => jsMapPush files f (.inst ins)
  | _ => jsMapPush files "instances.fsh" (.inst ins)

/-- Placement of one invariant in `groupByProfile`. -/
def placeInvariant (files : FileMap) (inv : ExportableInvariant) : FileMap :=
  match invariantUsedIn inv files with
  | [f] => jsMapPush files f (.invariant inv)
  | _ => jsMapPush files "invariants.fsh" (.invariant inv)

/-- `FSHExporter.groupByProfile`. -/
def groupByProfile (pkg : Package) : FileMap :=
  let files := pkg.profiles.foldl
    (fun m p => jsMapSet m (p.name ++ ".fsh") [.profile p]) ([] : FileMap)
  let files := jsMapSet files "instances.fsh" []
  let part := pkg.instances.partition (fun i => i.usage == "Inline")
  let files := part.2.foldl placeNonInline files
  let files := part.1.foldl placeInline files
  let files := jsMapSet files "invariants.fsh" []
  let files := pkg.invariants.foldl placeInvariant files
  let files := jsMapSet files "aliases.fsh" (pkg.aliases.map .alias)
  let files := jsMapSet files "extensions.fsh" (pkg.extensions.map .extension)
  let files := jsMapSet files "valueSets.fsh" (pkg.valueSets.map .valueSet)
  let files := jsMapSet files "codeSystems.fsh" (pkg.codeSystems.map .codeSystem)
  jsMapSet files "mappings.fsh" (pkg.mappings.map .mapping)

/-- The strategy dispatch of `FSHExporter.export`, with the fallback
warning for an unrecognized non-null style. -/
def groupFiles (pkg : Package) (style : Option String) : FileMap × List LogEntry :=
  match style with
  | some "single-file" => (groupAsSingleFile pkg, [])
  | some "group-by-fsh-type" => (groupByFSHType pkg, [])
  | some "group-by-profile" => (groupByProfile pkg, [])
  | some "file-per-definition" => (groupAsFilePerDefinition pkg, [])
  | some other =>
      (groupByFSHType pkg,
        [(.warn, "Unrecognized output style \"" ++ other ++
          "\". Defaulting to \"by-category\" style.")])
  | none => (groupByFSHType pkg, [])

/-- One `Exported N Thing(s).` info line. -/
def countLog (noun : String) (n : Nat) : LogEntry :=
  (.info, "Exported " ++ toString n ++ " " ++ noun ++ (if n == 1 then "" else "s") ++ ".")

/-- The seven `logger.info` calls of `FSHExporter.export`. -/
def exportInfoLogs (pkg : Package) : List LogEntry :=
  [countLog "Profile" pkg.profiles.length,
    countLog "Extension" pkg.extensions.length,
    countLog "CodeSystem" pkg.codeSystems.length,
    countLog "ValueSet" pkg.valueSets.length,
    countLog "Instance" pkg.instances.length,
    countLog "Invariant" pkg.invariants.length,
    countLog "Mapping" pkg.mappings.length]

/-- `os.EOL` on the deployment platform. -/
def EOL : String := "\n"

/-- JS `String.prototype.trim`: strip whitespace from both ends. -/
def jsTrim (s : String) : String :=
  String.mk (((s.data.dropWhile Char.isWhitespace).reverse.dropWhile
    Char.isWhitespace).reverse)

/-- The rendered content of one output group: aliases joined by single
line breaks, named exportables joined by blank lines, the two blocks
joined by a blank line, and the result trimmed. -/
def renderContent (toFSH : Exportable → String) (exportables : List Exportable) : String :=
  let part := exportables.partition Exportable.isAlias
  jsTrim (String.intercalate EOL (part.1.map toFSH) ++ EOL ++ EOL ++
    String.intercalate (EOL ++ EOL) (part.2.map toFSH))

/-- One index row: entity name, FSH type label, file name. -/
abbrev IndexRow := String × String × String

/-- The body of the `files.forEach` loop of `FSHExporter.export`: skip a
group whose rendered content is empty, otherwise record the file and push
one index row per named exportable. -/
def exportStep (toFSH : Exportable → String)
    (acc : List (String × String) × List IndexRow) (fe : String × List Exportable) :
    List (String × String) × List IndexRow :=
  let fileContent := renderContent toFSH fe.2
  if fileContent == "" then acc
  else
    (jsMapSet acc.1 fe.1 fileContent,
      acc.2 ++ (fe.2.partition Exportable.isAlias).2.map
        (fun e => ((e.name, e.typeLabel, fe.1) : IndexRow)))

/-- The `files.forEach` loop of `FSHExporter.export`. -/
def exportCore (toFSH : Exportable → String) (files : FileMap) :
    List (String × String) × List IndexRow :=
  files.foldl (exportStep toFSH) ([], [])

/-- Case-sensitive lexicographic comparison of character lists by code
point — the order JS `<`/`>` induces on strings. -/
def charListLe : List Char → List Char → Bool
  | [], _ => true
  | _ :: _, [] => false
  | a :: as, b :: bs =>
      if a.toNat < b.toNat then true
      else if b.toNat < a.toNat then false
      else charListLe as bs

/-- The index ordering: ascending by entity name under case-sensitive
lexicographic string comparison.  (The source sorts with the comparator
`line1[0] > line2[0] ? 1 : -1`, whose every verdict on rows with distinct
names agrees with this order; rows with equal names order arbitrarily.) -/
def rowLE (a b : IndexRow) : Prop := charListLe a.1.data b.1.data = true

instance : DecidableRel rowLE := fun a b =>
  inferInstanceAs (Decidable (charListLe a.1.data b.1.data = true))

/-- The `index.sort(...)` call. -/
def sortRows (rows : List IndexRow) : List IndexRow :=
  List.insertionSort rowLE rows

/-- The header row unshifted onto the sorted index. -/
def indexHeader : IndexRow := ("Name", "Type", "File")

/-- `FSHExporter.export(style)`.  `toFSH` is the external per-class
renderer and `tableRender` the external `text-table` formatter.  Returns
the written-files map, the final index rows (header first — the list the
source passes to `table`), and the logger calls. -/
def exportFSH (pkg : Package) (style : Option String) (toFSH : Exportable → String)
    (tableRender : List IndexRow → String) :
    List (String × String) × List IndexRow × List LogEntry :=
  let grouped := groupFiles pkg style
  let core := exportCore toFSH grouped.1
  let index := indexHeader :: sortRows core.2
  (jsMapSet core.1 "index.txt" (tableRender index), index,
    grouped.2 ++ exportInfoLogs pkg)

/-- The index rows described by the specification: one row (name, type
label, group name) per named (non-alias) statement of every group whose
rendered content is non-empty after trimming; dropped groups contribute no
rows. -/
def retainedRows (toFSH : Exportable → String) (files : FileMap) : List IndexRow :=
  files.flatMap (fun fe =>
    if renderContent toFSH fe.2 == "" then []
    else (fe.2.partition Exportable.isAlias).2.map
      (fun e => ((e.name, e.typeLabel, fe.1) : IndexRow)))

theorem charListLe_total : ∀ (as bs : List Char),
    charListLe as bs = true ∨ charListLe bs as = true
  | [], _ => Or.inl rfl
  | _ :: _, [] => Or.inr rfl
  | a :: as, b :: bs => by
      unfold charListLe
      rcases Nat.lt_trichotomy a.toNat b.toNat with h | h | h
      · left; simp [h]
      · rcases charListLe_total as bs with hr | hr
        · left; simp [h.le.not_lt, hr]
        · right; simp [h.le.not_lt, h.ge.not_lt, hr]
      · right; simp [h]

theorem charListLe_trans : ∀ (as bs cs : List Char),
    charListLe as bs = true → charListLe bs cs = true → charListLe as cs = true
  | [], _, _, _, _ => rfl
  | _ :: _, [], _, h1, _ => by simp [charListLe] at h1
  | _ :: _, _ :: _, [], _, h2 => by simp [charListLe] at h2
  | a :: as, b :: bs, c :: cs, h1, h2 => by
      unfold charListLe at h1 h2 ⊢
      split_ifs at h1 h2 ⊢ <;>
        first
          | rfl
          | omega
          | exact charListLe_trans as bs cs h1 h2

instance : IsTotal IndexRow rowLE :=
  ⟨fun a b => charListLe_total a.1.data b.1.data⟩

instance : IsTrans IndexRow rowLE :=
  ⟨fun a b c hab hbc => charListLe_trans a.1.data b.1.data c.1.data hab hbc⟩

/-- The occurrence list the amended claim counts for an inline instance:
one occurrence (recording the group name) per assignment- or caret-type
rule flagged as an instance reference with value equal to the given name,
in any instance, profile or extension of any group present in the map. -/
def inlineRefOccurrences (name : String) (files : FileMap) : List String :=
  files.flatMap (fun fe => fe.2.flatMap (fun e =>
    (Exportable.scannedRules e).elim []
      (fun rules => (rules.filter (ExportableRule.isInstanceRefTo name)).map
        (fun _ => fe.1))))

/-- The occurrence list the amended claim counts for an invariant: one
occurrence per obeys-type rule whose keys include the name, in any
profile of any group present in the map. -/
def invariantRefOccurrences (name : String) (files : FileMap) : List String :=
  files.flatMap (fun fe => fe.2.flatMap (fun e =>
    ((fun x => match x with | Exportable.profile p => some p.rules | _ => none) e).elim []
      (fun rules => (rules.filter (ExportableRule.obeysRefTo name)).map
        (fun _ => fe.1))))

/-- A suffix a flattened path may append to its field's prefix: empty, or
starting a dotted component, or starting an array index. -/
def sepSuffix (s : String) : Prop :=
  s = "" ∨ s.data.head? = some '.' ∨ s.data.head? = some '['

/-- A JSON property name as it appears in FHIR documents: non-empty and
free of the `.` and `[` used by flattened paths. -/
def cleanKey (k : String) : Prop :=
  k ≠ "" ∧ ∀ c ∈ k.data, c ≠ '.' ∧ c ≠ '['

/-- `p` addresses the property `key` itself or a leaf below it. -/
def underKey (key p : String) : Prop :=
  ∃ t, p = key ++ t ∧ sepSuffix t

instance (k : String) : Decidable (cleanKey k) :=
  decidable_of_iff (k ≠ "" ∧ ∀ c ∈ k.data, c ≠ '.' ∧ c ≠ '[') Iff.rfl

instance (s : String) : Decidable (sepSuffix s) :=
  decidable_of_iff (s = "" ∨ s.data.head? = some '.' ∨ s.data.head? = some '[') Iff.rfl

/-! ## Theorems -/

theorem isPre_iff : ∀ (xs ys : List Char), isPre xs ys = true ↔ xs <+: ys
  | [], ys => by simp [isPre]
  | x :: xs, [] => by simp [isPre]
  | x :: xs, y :: ys => by
      rw [show isPre (x :: xs) (y :: ys) = ((x == y) && isPre xs ys) from rfl,
        Bool.and_eq_true, beq_iff_eq, isPre_iff xs ys, List.cons_prefix_cons]

theorem fixConstraintBlock_value (inputJSON : JValue)
    (structDef : ProcessableStructureDefinition) (path key : String)
    (rule : ExportableCaretValueRule) :
    (fixConstraintBlock inputJSON structDef path key rule).1.value = rule.value := by
  unfold fixConstraintBlock
  split
  · rfl
  · split <;> rfl

theorem fixMappingBlock_value (inputJSON : JValue)
    (structDef : ProcessableStructureDefinition) (path key : String)
    (rule : ExportableCaretValueRule) :
    (fixMappingBlock inputJSON structDef path key rule).1.value = rule.value := by
  unfold fixMappingBlock
  split
  · rfl
  · split <;> rfl

theorem processEntry_some (inputJSON : JValue) (structDef : ProcessableStructureDefinition)
    (path : String) (getFSHValue : Nat → List (String × JValue) → String)
    (isFSHValueEmpty : String → Bool) (remaining : List (String × JValue))
    (i : Nat) (key : String) (r : ExportableCaretValueRule)
    (h : (processEntry inputJSON structDef path getFSHValue isFSHValueEmpty remaining i key).1 =
      some r) :
    r.value = getFSHValue i remaining ∧ isFSHValueEmpty (getFSHValue i remaining) = false := by
  unfold processEntry at h
  by_cases he : isFSHValueEmpty (getFSHValue i remaining) = true
  · simp [he] at h
  · simp only [Bool.not_eq_true] at he
    simp only [he, Bool.false_eq_true, if_false, Option.some.injEq] at h
    subst h
    rw [fixMappingBlock_value, fixConstraintBlock_value]
    exact ⟨rfl, he⟩

theorem process_mem_rules (input : ProcessableElementDefinition)
    (structDef : ProcessableStructureDefinition) (path : String)
    (getFSHValue : Nat → List (String × JValue) → String)
    (isFSHValueEmpty : String → Bool) (r : ExportableCaretValueRule)
    (hr : r ∈ (process input structDef path getFSHValue isFSHValueEmpty).1) :
    ∃ iv ∈ (remainingFlatElementArray input).enum,
      (processEntry input.json structDef path getFSHValue isFSHValueEmpty
        (remainingFlatElementArray input) iv.1 iv.2.1).1 = some r := by
  simp only [process, List.mem_filterMap, List.mem_map] at hr
  obtain ⟨x, ⟨iv, hiv, rfl⟩, hxr⟩ := hr
  exact ⟨iv, hiv, hxr⟩

theorem processStructureDefinition_mem_rules (input : JValue) (fishResult : Option JValue)
    (config : Configuration) (getFSHValue : Nat → List (String × JValue) → String)
    (isFSHValueEmpty : String → Bool) (r : ExportableCaretValueRule)
    (hr : r ∈ (processStructureDefinition input fishResult config getFSHValue isFSHValueEmpty).1) :
    ∃ iv ∈ (getPathValuePairs (prepareSDCopies input fishResult).1).enum,
      (emitSDEntry input config (getPathValuePairs (prepareSDCopies input fishResult).1)
        (getPathValuePairs (prepareSDCopies input fishResult).2)
        getFSHValue isFSHValueEmpty iv.1 iv.2.1).1 = some r := by
  simp only [processStructureDefinition, List.mem_filterMap, List.mem_map] at hr
  obtain ⟨x, ⟨iv, hiv, rfl⟩, hxr⟩ := hr
  exact ⟨iv, hiv, hxr⟩

theorem emitSDEntry_some (input : JValue) (config : Configuration)
    (flatSD flatParent : List (String × JValue))
    (getFSHValue : Nat → List (String × JValue) → String)
    (isFSHValueEmpty : String → Bool) (i : Nat) (key : String)
    (r : ExportableCaretValueRule)
    (h : (emitSDEntry input config flatSD flatParent getFSHValue isFSHValueEmpty i key).1 =
      some r) :
    sdEmitCondition flatSD flatParent key = true ∧
      ¬(key == "url" && isStandardURL "StructureDefinition" config input) = true ∧
      r = { path := "", caretPath := key, value := getFSHValue i flatSD } ∧
      isFSHValueEmpty (getFSHValue i flatSD) = false := by
  unfold emitSDEntry at h
  by_cases hc : sdEmitCondition flatSD flatParent key = true
  · by_cases hu : (key == "url" && isStandardURL "StructureDefinition" config input) = true
    · simp [hc, hu] at h
    · by_cases he : isFSHValueEmpty (getFSHValue i flatSD) = true
      · simp [hc, hu, he] at h
      · simp only [hc, if_true, hu, Bool.false_eq_true, if_false, he,
          Option.some.injEq] at h
        exact ⟨hc, by simp [hu], h.symm, by simpa using he⟩
  · simp [hc] at h

theorem processResource_mem_rules (input : JValue) (resourceType : String)
    (config : Configuration) (getFSHValue : Nat → List (String × JValue) → String)
    (isFSHValueEmpty : String → Bool) (r : ExportableCaretValueRule)
    (hr : r ∈ (processResource input resourceType config getFSHValue isFSHValueEmpty).1) :
    ∃ iv ∈ (resourceFlatArray input resourceType).enum,
      ¬(iv.2.1 == "url" && isStandardURL resourceType config input) = true ∧
      r = { path := "", caretPath := iv.2.1,
            value := getFSHValue iv.1 (resourceFlatArray input resourceType) } ∧
      isFSHValueEmpty r.value = false := by
  simp only [processResource, List.mem_filterMap, List.mem_map] at hr
  obtain ⟨x, ⟨iv, hiv, rfl⟩, hxr⟩ := hr
  refine ⟨iv, hiv, ?_⟩
  by_cases hu : (iv.2.1 == "url" && isStandardURL resourceType config input) = true
  · simp [hu] at hxr
  · by_cases he : isFSHValueEmpty
        (getFSHValue iv.1 (resourceFlatArray input resourceType)) = true
    · simp [hu, he] at hxr
    · simp only [hu, Bool.false_eq_true, if_false, he, Option.some.injEq] at hxr
      exact ⟨by simp [hu], hxr.symm, by rw [← hxr]; simpa using he⟩

theorem processConcept_mem_rules (input : JValue) (conceptHierarchy : List String)
    (codeSystemName : String) (getFSHValue : Nat → List (String × JValue) → String)
    (isFSHValueEmpty : String → Bool) (r : ExportableCaretValueRule)
    (hr : r ∈ (processConcept input conceptHierarchy codeSystemName getFSHValue
      isFSHValueEmpty).1) :
    ∃ iv ∈ (conceptFlatArray input).enum,
      r = { path := "", caretPath := iv.2.1,
            value := getFSHValue iv.1 (conceptFlatArray input),
            isCodeCaretRule := true, pathArray := conceptHierarchy } ∧
      isFSHValueEmpty r.value = false := by
  simp only [processConcept, List.mem_filterMap, List.mem_map] at hr
  obtain ⟨x, ⟨iv, hiv, rfl⟩, hxr⟩ := hr
  refine ⟨iv, hiv, ?_⟩
  by_cases he : isFSHValueEmpty (getFSHValue iv.1 (conceptFlatArray input)) = true
  · simp [he] at hxr
  · simp only [he, Bool.false_eq_true, if_false, Option.some.injEq] at hxr
    exact ⟨hxr.symm, by rw [← hxr]; simpa using he⟩

/-- Claim C7: for every entry point of both extractors (per-element,
resource-with-inheritance, resource-without-inheritance, concept node) and
every input, every statement in the returned list has a non-empty value per
the empty-value predicate; and an entry whose resolved value is empty
produces no statement and exactly one logged error, each entry being
handled independently so the remaining entries are unaffected. -/
theorem claim_C7_nonempty_values :
    (∀ input structDef path getFSHValue isFSHValueEmpty,
      ∀ r ∈ (process input structDef path getFSHValue isFSHValueEmpty).1,
        isFSHValueEmpty r.value = false) ∧
    (∀ input fishResult config getFSHValue isFSHValueEmpty,
      ∀ r ∈ (processStructureDefinition input fishResult config getFSHValue
        isFSHValueEmpty).1, isFSHValueEmpty r.value = false) ∧
    (∀ input resourceType config getFSHValue isFSHValueEmpty,
      ∀ r ∈ (processResource input resourceType config getFSHValue isFSHValueEmpty).1,
        isFSHValueEmpty r.value = false) ∧
    (∀ input conceptHierarchy codeSystemName getFSHValue isFSHValueEmpty,
      ∀ r ∈ (processConcept input conceptHierarchy codeSystemName getFSHValue
        isFSHValueEmpty).1, isFSHValueEmpty r.value = false) ∧
    (∀ inputJSON structDef path getFSHValue isFSHValueEmpty remaining i key,
      isFSHValueEmpty (getFSHValue i remaining) = true →
        (processEntry inputJSON structDef path getFSHValue isFSHValueEmpty
          remaining i key).1 = none ∧
        ∃ m, (processEntry inputJSON structDef path getFSHValue isFSHValueEmpty
          remaining i key).2 = [(LogLevel.error, m)]) ∧
    (∀ input config flatSD flatParent getFSHValue isFSHValueEmpty i key,
      isFSHValueEmpty (getFSHValue i flatSD) = true →
        (emitSDEntry input config flatSD flatParent getFSHValue isFSHValueEmpty i key).1 =
          none) := by
  refine ⟨?_, ?_, ?_, ?_, ?_, ?_⟩
  · intro input structDef path getFSHValue isFSHValueEmpty r hr
    obtain ⟨iv, _, hsome⟩ :=
      process_mem_rules input structDef path getFSHValue isFSHValueEmpty r hr
    have h := processEntry_some _ _ _ _ _ _ _ _ _ hsome
    rw [h.1]
    exact h.2
  · intro input fishResult config getFSHValue isFSHValueEmpty r hr
    obtain ⟨iv, _, hsome⟩ :=
      processStructureDefinition_mem_rules input fishResult config getFSHValue
        isFSHValueEmpty r hr
    obtain ⟨-, -, hrule, hval⟩ := emitSDEntry_some _ _ _ _ _ _ _ _ _ hsome
    rw [hrule]
    exact hval
  · intro input resourceType config getFSHValue isFSHValueEmpty r hr
    obtain ⟨iv, _, -, -, hval⟩ :=
      processResource_mem_rules input resourceType config getFSHValue isFSHValueEmpty r hr
    exact hval
  · intro input conceptHierarchy codeSystemName getFSHValue isFSHValueEmpty r hr
    obtain ⟨iv, _, -, hval⟩ :=
      processConcept_mem_rules input conceptHierarchy codeSystemName getFSHValue
        isFSHValueEmpty r hr
    exact hval
  · intro inputJSON structDef path getFSHValue isFSHValueEmpty remaining i key he
    refine ⟨?_, ?_⟩ <;> simp [processEntry, he]
  · intro input config flatSD flatParent getFSHValue isFSHValueEmpty i key he
    unfold emitSDEntry
    split
    · split
      · rfl
      · simp [he]
    · rfl

/-- Witness for claim C7: a concrete empty-valued entry yields no statement. -/
theorem claim_C7_nonempty_values_witness :
    (processEntry (.obj []) ⟨"SD", none⟩ "p" (fun _ _ => "") (fun v => v == "")
      [] 0 "key").1 = none :=
  (claim_C7_nonempty_values.2.2.2.2.1 (.obj []) ⟨"SD", none⟩ "p" (fun _ _ => "")
    (fun v => v == "") [] 0 "key" (by decide)).1

theorem wildMatch_self : ∀ (p s : List Char), wildMatch p (p ++ s) = some s
  | [], s => rfl
  | c :: ps, s => by
      rw [List.cons_append]
      unfold wildMatch
      rw [if_pos (Or.inr rfl)]
      exact wildMatch_self ps s

theorem takeWhile_digits : ∀ (ds tail : List Char), (∀ c ∈ ds, c.isDigit) →
    List.takeWhile Char.isDigit (ds ++ ']' :: tail) = ds
  | [], tail, _ => by
      rw [List.nil_append, List.takeWhile_cons_of_neg (by decide)]
  | d :: ds, tail, hdig => by
      rw [List.cons_append, List.takeWhile_cons_of_pos (hdig d (List.mem_cons_self d ds)),
        takeWhile_digits ds tail (fun c hc => hdig c (List.mem_cons_of_mem d hc))]

theorem dropWhile_digits : ∀ (ds tail : List Char), (∀ c ∈ ds, c.isDigit) →
    List.dropWhile Char.isDigit (ds ++ ']' :: tail) = ']' :: tail
  | [], tail, _ => by
      rw [List.nil_append, List.dropWhile_cons_of_neg (by decide)]
  | d :: ds, tail, hdig => by
      rw [List.cons_append, List.dropWhile_cons_of_pos (hdig d (List.mem_cons_self d ds)),
        dropWhile_digits ds tail (fun c hc => hdig c (List.mem_cons_of_mem d hc))]

theorem tryBracket_digits (ds tail : List Char) (hne : ds ≠ [])
    (hdig : ∀ c ∈ ds, c.isDigit) :
    tryBracket ('[' :: (ds ++ ']' :: tail)) = some tail := by
  have hnonempty : (!(List.takeWhile Char.isDigit (ds ++ ']' :: tail)).isEmpty) = true := by
    rw [takeWhile_digits ds tail hdig]
    cases ds with
    | nil => exact absurd rfl hne
    | cons d ds => rfl
  unfold tryBracket
  simp only [List.head?_cons, List.tail_cons, dropWhile_digits ds tail hdig,
    Option.some.injEq]
  rw [if_pos trivial, if_pos ⟨hnonempty, trivial⟩]

theorem ignoreRegexAt_dot (prop post : List Char) :
    ignoreRegexAt prop (prop ++ '.' :: post) = true := by
  unfold ignoreRegexAt
  rw [wildMatch_self]
  simp [tryBracket]

theorem ignoreRegexAt_bracket (prop ds post : List Char) (hne : ds ≠ [])
    (hdig : ∀ c ∈ ds, c.isDigit) :
    ignoreRegexAt prop (prop ++ '[' :: (ds ++ ']' :: '.' :: post)) = true := by
  unfold ignoreRegexAt
  rw [wildMatch_self]
  simp only [Option.elim, tryBracket_digits ds ('.' :: post) hne hdig]
  simp

theorem ignoreRegexTest_shift (prop s : List Char) (h : ignoreRegexAt prop s = true) :
    ∀ (pre : List Char), ignoreRegexTest prop (pre ++ s) = true := by
  intro pre
  induction pre with
  | nil =>
      cases s with
      | nil => simpa [ignoreRegexTest] using h
      | cons c rest => simp [ignoreRegexTest, h]
  | cons c pre ih => simp [ignoreRegexTest, ih]

theorem enum_snd_mem {α : Type} (l : List α) (iv : Nat × α) (h : iv ∈ l.enum) :
    iv.2 ∈ l := by
  have := List.mem_map_of_mem Prod.snd h
  rwa [List.enum_map_snd] at this

/-- Claim C10: the ignore-list exclusion of `processResource` and
`processConcept` is unanchored.  A key equal to an ignored property, and a
key in which an ignored property followed by an optional array index and a
dot occurs as a substring anywhere (interior occurrences included), is
excluded; and every statement emitted by either entry point has a caret
path excluded by no ignored property of the respective list. -/
theorem claim_C10_unanchored_ignore :
    (∀ (prop key : String) (pre post ds : List Char),
      (key.data = pre ++ prop.data ++ '.' :: post ∨
        (key.data = pre ++ prop.data ++ '[' :: ds ++ ']' :: '.' :: post ∧ ds ≠ [] ∧
          ∀ c ∈ ds, c.isDigit)) →
      ignoreMatches prop key = true) ∧
    (∀ prop key, key = prop → ignoreMatches prop key = true) ∧
    (∀ input resourceType config getFSHValue isFSHValueEmpty r,
      r ∈ (processResource input resourceType config getFSHValue isFSHValueEmpty).1 →
      ∀ prop ∈ (if resourceType == "ValueSet" then VALUESET_IGNORED_PROPERTIES
        else CODESYSTEM_IGNORED_PROPERTIES), ignoreMatches prop r.caretPath = false) ∧
    (∀ input conceptHierarchy codeSystemName getFSHValue isFSHValueEmpty r,
      r ∈ (processConcept input conceptHierarchy codeSystemName getFSHValue
        isFSHValueEmpty).1 →
      ∀ prop ∈ CONCEPT_IGNORED_PROPERTIES, ignoreMatches prop r.caretPath = false) := by
  refine ⟨?_, ?_, ?_, ?_⟩
  · intro prop key pre post ds h
    simp only [ignoreMatches, Bool.or_eq_true, beq_iff_eq]
    right
    rcases h with h | ⟨h, hne, hdig⟩
    · have hs := ignoreRegexTest_shift prop.data (prop.data ++ '.' :: post)
        (ignoreRegexAt_dot prop.data post) pre
      rw [h]
      simpa [List.append_assoc] using hs
    · have hs := ignoreRegexTest_shift prop.data
        (prop.data ++ '[' :: (ds ++ ']' :: '.' :: post))
        (ignoreRegexAt_bracket prop.data ds post hne hdig) pre
      rw [h]
      simpa [List.append_assoc] using hs
  · intro prop key h
    simp [ignoreMatches, h]
  · intro input resourceType config getFSHValue isFSHValueEmpty r hr prop hprop
    obtain ⟨iv, hiv, -, hrule, -⟩ :=
      processResource_mem_rules input resourceType config getFSHValue isFSHValueEmpty r hr
    have hmem := enum_snd_mem _ _ hiv
    rw [resourceFlatArray, List.mem_filter] at hmem
    have hall := hmem.2
    simp only [Bool.not_eq_true', List.any_eq_false] at hall
    have hthis := hall prop hprop
    rw [hrule]
    simpa using hthis
  · intro input conceptHierarchy codeSystemName getFSHValue isFSHValueEmpty r hr prop hprop
    obtain ⟨iv, hiv, hrule, -⟩ :=
      processConcept_mem_rules input conceptHierarchy codeSystemName getFSHValue
        isFSHValueEmpty r hr
    have hmem := enum_snd_mem _ _ hiv
    rw [conceptFlatArray, List.mem_filter] at hmem
    have hall := hmem.2
    simp only [Bool.not_eq_true', List.any_eq_false] at hall
    have hthis := hall prop hprop
    rw [hrule]
    simpa using hthis

/-- Witness for claim C10: an interior occurrence `foo.concept[3].bar` of
the ignored property `concept` is excluded. -/
theorem claim_C10_unanchored_ignore_witness :
    ignoreMatches "concept" "foo.concept[3].bar" = true :=
  claim_C10_unanchored_ignore.1 "concept" "foo.concept[3].bar"
    "foo.".data "bar".data ['3'] (Or.inr ⟨by decide, by decide, by decide⟩)

theorem jsMapSet_mem_keys {α : Type} (m : List (String × α)) (k : String) (v : α) :
    k ∈ (jsMapSet m k v).map Prod.fst := by
  unfold jsMapSet
  split
  · rename_i h
    obtain ⟨e, he, heq⟩ := List.any_eq_true.mp h
    refine List.mem_map.mpr ⟨(k, v), List.mem_map.mpr ⟨e, he, ?_⟩, rfl⟩
    rw [if_pos heq]
  · simp

/-- Claim C9: for every package and every strategy name, the mapping
returned by the export operation contains the reserved index group
`index.txt`; and on the empty package the result is exactly the index
group holding only the header row (every other group is dropped as empty). -/
theorem claim_C9_index_always_present :
    (∀ pkg style toFSH tableRender,
      "index.txt" ∈ (exportFSH pkg style toFSH tableRender).1.map Prod.fst) ∧
    (∀ style toFSH tableRender,
      (exportFSH {} style toFSH tableRender).1 =
        [("index.txt", tableRender [indexHeader])]) := by
  constructor
  · intro pkg style toFSH tableRender
    unfold exportFSH
    exact jsMapSet_mem_keys _ _ _
  · intro style toFSH tableRender
    cases style with
    | none => rfl
    | some sname =>
        by_cases h1 : sname = "single-file"
        · subst h1; rfl
        · by_cases h2 : sname = "group-by-fsh-type"
          · subst h2; rfl
          · by_cases h3 : sname = "group-by-profile"
            · subst h3; rfl
            · by_cases h4 : sname = "file-per-definition"
              · subst h4; rfl
              · have hgroup : groupFiles {} (some sname) =
                    (groupByFSHType {},
                      [(.warn, "Unrecognized output style \"" ++ sname ++
                        "\". Defaulting to \"by-category\" style.")]) := by
                  unfold groupFiles
                  split
                  · rename_i heq
                    exact absurd (Option.some.inj heq) h1
                  · rename_i heq
                    exact absurd (Option.some.inj heq) h2
                  · rename_i heq
                    exact absurd (Option.some.inj heq) h3
                  · rename_i heq
                    exact absurd (Option.some.inj heq) h4
                  · rename_i heq
                    rw [Option.some.inj heq]
                  · rename_i heq
                    exact absurd heq (by simp)
                simp only [exportFSH, hgroup]
                rfl

theorem exportCore_rows_aux (toFSH : Exportable → String) :
    ∀ (files : FileMap) (acc : List (String × String) × List IndexRow),
      (files.foldl (exportStep toFSH) acc).2 = acc.2 ++ retainedRows toFSH files := by
  intro files
  induction files with
  | nil => intro acc; simp [retainedRows]
  | cons fe rest ih =>
      intro acc
      rw [List.foldl_cons, ih]
      simp only [retainedRows, List.flatMap_cons]
      unfold exportStep
      by_cases h : (renderContent toFSH fe.2 == "") = true
      · simp [h]
      · simp [h, List.append_assoc]

theorem exportCore_rows (toFSH : Exportable → String) (files : FileMap) :
    (exportCore toFSH files).2 = retainedRows toFSH files := by
  rw [exportCore, exportCore_rows_aux]
  simp

theorem jsMapSet_mem {α : Type} (m : List (String × α)) (k : String) (v : α)
    (e : String × α) (he : e ∈ jsMapSet m k v) : e = (k, v) ∨ e ∈ m := by
  unfold jsMapSet at he
  split at he
  · obtain ⟨x, hx, hfx⟩ := List.mem_map.mp he
    by_cases hxk : (x.1 == k) = true
    · rw [if_pos hxk] at hfx
      exact Or.inl hfx.symm
    · rw [if_neg hxk] at hfx
      exact Or.inr (hfx ▸ hx)
  · rcases List.mem_append.mp he with h | h
    · exact Or.inr h
    · exact Or.inl (List.mem_singleton.mp h)

theorem exportCore_files_nonempty (toFSH : Exportable → String) :
    ∀ (files : FileMap) (acc : List (String × String) × List IndexRow),
      (∀ fc ∈ acc.1, fc.2 ≠ "") →
      ∀ fc ∈ (files.foldl (exportStep toFSH) acc).1, fc.2 ≠ ""
  | [], acc, hacc => hacc
  | fe :: rest, acc, hacc => by
      rw [List.foldl_cons]
      refine exportCore_files_nonempty toFSH rest _ ?_
      unfold exportStep
      by_cases h : renderContent toFSH fe.2 == ""
      · simpa [h] using hacc
      · simp only [h, Bool.false_eq_true, if_false]
        intro fc hfc
        rcases jsMapSet_mem _ _ _ _ hfc with rfl | hfc
        · simpa using h
        · exact hacc fc hfc

/-- Claim C8: for every package and strategy, the generated index is the
fixed header row followed by the sorted rows; those rows are sorted
ascending by name under case-sensitive lexicographic comparison and are a
permutation of one row (name, type label, group name) per named statement
of every retained group; a group whose rendered content is empty after
trimming appears in no output and contributes no rows, and every written
group other than the index itself has non-empty content. -/
theorem claim_C8_sorted_index (pkg : Package) (style : Option String)
    (toFSH : Exportable → String) (tableRender : List IndexRow → String) :
    (exportFSH pkg style toFSH tableRender).2.1 =
      indexHeader :: sortRows (retainedRows toFSH (groupFiles pkg style).1) ∧
    List.Sorted rowLE (sortRows (retainedRows toFSH (groupFiles pkg style).1)) ∧
    (sortRows (retainedRows toFSH (groupFiles pkg style).1)).Perm
      (retainedRows toFSH (groupFiles pkg style).1) ∧
    (∀ fc ∈ (exportFSH pkg style toFSH tableRender).1, fc.1 ≠ "index.txt" → fc.2 ≠ "") := by
  refine ⟨?_, ?_, ?_, ?_⟩
  · simp only [exportFSH]
    rw [exportCore_rows]
  · exact List.sorted_insertionSort rowLE _
  · exact List.perm_insertionSort rowLE _
  · intro fc hfc hne
    unfold exportFSH at hfc
    rcases jsMapSet_mem _ _ _ _ hfc with rfl | hfc
    · exact absurd rfl hne
    · exact exportCore_files_nonempty toFSH (groupFiles pkg style).1 ([], [])
        (by simp) fc hfc

/-- Witness for claim C8: on a concrete package with profiles named
`beta` and `Alpha`, the non-index group has non-empty content, and the
index sorts `Alpha` before `beta`. -/
theorem claim_C8_sorted_index_witness :
    (("profiles.fsh" : String) ≠ "index.txt" → ("X\n\nX" : String) ≠ "") ∧
    (exportFSH { profiles := [⟨"beta", []⟩, ⟨"Alpha", []⟩] } none (fun _ => "X")
      (fun _ => "T")).2.1 =
      [("Name", "Type", "File"), ("Alpha", "Profile", "profiles.fsh"),
        ("beta", "Profile", "profiles.fsh")] := by
  constructor
  · intro hne
    refine (claim_C8_sorted_index { profiles := [⟨"beta", []⟩, ⟨"Alpha", []⟩] } none
      (fun _ => "X") (fun _ => "T")).2.2.2 ("profiles.fsh", "X\n\nX") ?_ hne
    decide
  · rw [(claim_C8_sorted_index { profiles := [⟨"beta", []⟩, ⟨"Alpha", []⟩] } none
      (fun _ => "X") (fun _ => "T")).1]
    rfl

theorem processEntry_eq (inputJSON : JValue) (structDef : ProcessableStructureDefinition)
    (path : String) (getFSHValue : Nat → List (String × JValue) → String)
    (isFSHValueEmpty : String → Bool) (remaining : List (String × JValue))
    (i : Nat) (key : String)
    (hmt : isFSHValueEmpty (getFSHValue i remaining) = false) :
    processEntry inputJSON structDef path getFSHValue isFSHValueEmpty remaining i key =
      (some (fixMappingBlock inputJSON structDef path key
          (fixConstraintBlock inputJSON structDef path key
            { path := path, caretPath := key, value := getFSHValue i remaining }).1).1,
        (fixConstraintBlock inputJSON structDef path key
          { path := path, caretPath := key, value := getFSHValue i remaining }).2 ++
        (fixMappingBlock inputJSON structDef path key
          (fixConstraintBlock inputJSON structDef path key
            { path := path, caretPath := key, value := getFSHValue i remaining }).1).2) := by
  unfold processEntry
  simp only [hmt, Bool.false_eq_true, if_false]

theorem process_contains_entry (input : ProcessableElementDefinition)
    (structDef : ProcessableStructureDefinition) (path : String)
    (getFSHValue : Nat → List (String × JValue) → String)
    (isFSHValueEmpty : String → Bool) (i : Nat) (key : String) (v : JValue)
    (r : ExportableCaretValueRule)
    (hget : (remainingFlatElementArray input).get? i = some (key, v))
    (hsome : (processEntry input.json structDef path getFSHValue isFSHValueEmpty
      (remainingFlatElementArray input) i key).1 = some r) :
    r ∈ (process input structDef path getFSHValue isFSHValueEmpty).1 := by
  simp only [process, List.mem_filterMap, List.mem_map]
  exact ⟨_, ⟨(i, (key, v)), List.mem_enum_iff_getElem?.mpr
    (by rwa [← List.get?_eq_getElem?]), rfl⟩, hsome⟩

theorem fixConstraintBlock_rewrite (inputJSON : JValue)
    (structDef : ProcessableStructureDefinition) (path key : String)
    (rule : ExportableCaretValueRule) (matched : String) (n : Nat) (ni : Int)
    (hcm : matchIdxPattern "constraint" key = some (matched, n))
    (hni : newConstraintIndex inputJSON structDef n = some ni) :
    fixConstraintBlock inputJSON structDef path key rule =
      ({ rule with caretPath :=
          strReplaceFirst key matched ("constraint[" ++ toString ni ++ "]") }, []) := by
  unfold fixConstraintBlock
  rw [hcm]
  simp only [hni]

theorem fixConstraintBlock_warn (inputJSON : JValue)
    (structDef : ProcessableStructureDefinition) (path key : String)
    (rule : ExportableCaretValueRule) (matched : String) (n : Nat)
    (hcm : matchIdxPattern "constraint" key = some (matched, n))
    (hni : newConstraintIndex inputJSON structDef n = none) :
    fixConstraintBlock inputJSON structDef path key rule =
      ({ rule with fshComment := some (constraintWarnComment matched) },
        [(.warn, constraintWarnLog structDef.name path key)]) := by
  unfold fixConstraintBlock
  rw [hcm]
  simp only [hni]

theorem fixConstraintBlock_nomatch (inputJSON : JValue)
    (structDef : ProcessableStructureDefinition) (path key : String)
    (rule : ExportableCaretValueRule)
    (hcm : matchIdxPattern "constraint" key = none) :
    fixConstraintBlock inputJSON structDef path key rule = (rule, []) := by
  unfold fixConstraintBlock
  rw [hcm]

theorem fixMappingBlock_rewrite (inputJSON : JValue)
    (structDef : ProcessableStructureDefinition) (path key : String)
    (rule : ExportableCaretValueRule) (matched : String) (n : Nat) (ni : Int)
    (hcm : matchIdxPattern "mapping" key = some (matched, n))
    (hni : newMappingIndex inputJSON structDef n = some ni) :
    fixMappingBlock inputJSON structDef path key rule =
      ({ rule with caretPath :=
          strReplaceFirst key matched ("mapping[" ++ toString ni ++ "]") }, []) := by
  unfold fixMappingBlock
  rw [hcm]
  simp only [hni]

theorem fixMappingBlock_warn (inputJSON : JValue)
    (structDef : ProcessableStructureDefinition) (path key : String)
    (rule : ExportableCaretValueRule) (matched : String) (n : Nat)
    (hcm : matchIdxPattern "mapping" key = some (matched, n))
    (hni : newMappingIndex inputJSON structDef n = none) :
    fixMappingBlock inputJSON structDef path key rule =
      ({ rule with fshComment := some (mappingWarnComment matched) },
        [(.warn, mappingWarnLog structDef.name path key)]) := by
  unfold fixMappingBlock
  rw [hcm]
  simp only [hni]

theorem fixMappingBlock_nomatch (inputJSON : JValue)
    (structDef : ProcessableStructureDefinition) (path key : String)
    (rule : ExportableCaretValueRule)
    (hcm : matchIdxPattern "mapping" key = none) :
    fixMappingBlock inputJSON structDef path key rule = (rule, []) := by
  unfold fixMappingBlock
  rw [hcm]

/-- Claim C3: when a snapshot is present, `findMatchingSnapshot` finds a
snapshot element for the differential element's id (matching directly, or
via the alternate choice-type id syntax in which each path segment's
`[x]:` marker and everything before it is stripped), and that element's
constraint array has its first key-match for the differential constraint's
key at snapshot index `j`, then the statement emitted for the entry whose
caret path holds the differential constraint index is rewritten to use
`j` and carries no warning comment. -/
theorem claim_C3_constraint_rewrite
    (input : ProcessableElementDefinition) (structDef : ProcessableStructureDefinition)
    (path : String) (getFSHValue : Nat → List (String × JValue) → String)
    (isFSHValueEmpty : String → Bool) (i j : Nat) (key : String) (v : JValue)
    (matched : String) (n : Nat) (el : JValue) (cs : List JValue)
    (hget : (remainingFlatElementArray input).get? i = some (key, v))
    (hmt : isFSHValueEmpty (getFSHValue i (remainingFlatElementArray input)) = false)
    (hcm : matchIdxPattern "constraint" key = some (matched, n))
    (hmm : matchIdxPattern "mapping" key = none)
    (hsnap : snapshotNonempty structDef = true)
    (hfind : findMatchingSnapshot (jGet input.json "id") structDef = some el)
    (hcs : jGet el "constraint" = some (.arr cs))
    (hidx : cs.findIdx? (fun c => jsStrictEq (jGet c "key")
      (diffConstraintKey input.json n)) = some j) :
    (processEntry input.json structDef path getFSHValue isFSHValueEmpty
        (remainingFlatElementArray input) i key) =
      (some
        { path := path,
          caretPath :=
            strReplaceFirst key matched ("constraint[" ++ toString (j : Int) ++ "]"),
          value := getFSHValue i (remainingFlatElementArray input) },
        ([] : List LogEntry)) ∧
    ({ path := path,
       caretPath :=
         strReplaceFirst key matched ("constraint[" ++ toString (j : Int) ++ "]"),
       value := getFSHValue i (remainingFlatElementArray input) } :
        ExportableCaretValueRule) ∈
      (process input structDef path getFSHValue isFSHValueEmpty).1 := by
  have hni : newConstraintIndex input.json structDef n = some (j : Int) := by
    simp only [newConstraintIndex, hsnap, if_true, hfind, hcs, hidx]
  have heq := processEntry_eq input.json structDef path getFSHValue isFSHValueEmpty
    (remainingFlatElementArray input) i key hmt
  rw [fixConstraintBlock_rewrite input.json structDef path key _ matched n (j : Int)
    hcm hni, fixMappingBlock_nomatch input.json structDef path key _ hmm] at heq
  refine ⟨heq, ?_⟩
  exact process_contains_entry input structDef path getFSHValue isFSHValueEmpty i key v _
    hget (by rw [heq])

/-- Witness for claim C3: the spec's example — differential constraint
`ele-1` at differential index 0, snapshot index 2 — yields the caret path
`constraint[2].key` with no comment. -/
theorem claim_C3_constraint_rewrite_witness :
    ({ path := "E", caretPath := "constraint[2].key", value := "v" } :
        ExportableCaretValueRule) ∈
      (process
        ⟨.obj [("id", .str "E"), ("constraint", .arr [.obj [("key", .str "ele-1")]])], []⟩
        ⟨"SD", some [.obj [("id", .str "E"),
          ("constraint", .arr [.obj [("key", .str "a")], .obj [("key", .str "b")],
            .obj [("key", .str "ele-1")]])]]⟩
        "E" (fun _ _ => "v") (fun s => s == "")).1 := by
  have h := claim_C3_constraint_rewrite
    ⟨.obj [("id", .str "E"), ("constraint", .arr [.obj [("key", .str "ele-1")]])], []⟩
    ⟨"SD", some [.obj [("id", .str "E"),
      ("constraint", .arr [.obj [("key", .str "a")], .obj [("key", .str "b")],
        .obj [("key", .str "ele-1")]])]]⟩
    "E" (fun _ _ => "v") (fun s => s == "") 0 2 "constraint[0].key" (.str "ele-1")
    "constraint[0]" 0
    (.obj [("id", .str "E"),
      ("constraint", .arr [.obj [("key", .str "a")], .obj [("key", .str "b")],
        .obj [("key", .str "ele-1")]])])
    [.obj [("key", .str "a")], .obj [("key", .str "b")], .obj [("key", .str "ele-1")]]
    (by decide) (by decide) (by decide) (by decide) (by decide) (by decide) (by decide)
    (by decide)
  exact h.2

/-- Counterexample to claim C1: with a snapshot present and a matching
snapshot element whose constraint array holds no entry with the
differential constraint's key, `findIndex` returns `-1`, which is not
`null`, so the caret path is rewritten to `constraint[-1]` — the
differential index is not retained, no warning comment is attached, and
no warning is logged. -/
theorem claim_C1_counterexample :
    process
      ⟨.obj [("id", .str "E"), ("constraint", .arr [.obj [("key", .str "k1")]])], []⟩
      ⟨"SD", some [.obj [("id", .str "E"),
        ("constraint", .arr [.obj [("key", .str "other")]])]]⟩
      "E" (fun _ _ => "v") (fun s => s == "") =
    ([{ path := "E", caretPath := "constraint[-1].key", value := "v" }],
      ([] : List LogEntry)) := by
  decide

/-- Claim C1 (amended): for a leaf entry whose caret path holds a
constraint (resp. mapping) index, when the snapshot-relative index is
undefined — no snapshot available, no matching snapshot element, or a
matched element without a constraint (resp. mapping) array — the emitted
statement retains the differential index unchanged, carries a warning
comment, and exactly one warning is logged, the statement still being
emitted.  When a matching snapshot element has a constraint (resp.
mapping) array in which no entry matches (by key for constraints, by deep
structural equality for mappings), the index is instead rewritten to `-1`
with no warning comment and no logged warning. -/
theorem claim_C1_amended (inputJSON : JValue)
    (structDef : ProcessableStructureDefinition) (path : String)
    (getFSHValue : Nat → List (String × JValue) → String)
    (isFSHValueEmpty : String → Bool) (remaining : List (String × JValue))
    (i : Nat) (key matched : String) (n : Nat)
    (hmt : isFSHValueEmpty (getFSHValue i remaining) = false) :
    (matchIdxPattern "constraint" key = some (matched, n) →
      matchIdxPattern "mapping" key = none →
      newConstraintIndex inputJSON structDef n = none →
      processEntry inputJSON structDef path getFSHValue isFSHValueEmpty remaining i key =
        (some
          { path := path, caretPath := key, value := getFSHValue i remaining,
            fshComment := some (constraintWarnComment matched) },
          [(.warn, constraintWarnLog structDef.name path key)])) ∧
    (∀ el cs, matchIdxPattern "constraint" key = some (matched, n) →
      matchIdxPattern "mapping" key = none →
      snapshotNonempty structDef = true →
      findMatchingSnapshot (jGet inputJSON "id") structDef = some el →
      jGet el "constraint" = some (.arr cs) →
      cs.findIdx? (fun c => jsStrictEq (jGet c "key")
        (diffConstraintKey inputJSON n)) = none →
      processEntry inputJSON structDef path getFSHValue isFSHValueEmpty remaining i key =
        (some
          { path := path, caretPath := strReplaceFirst key matched "constraint[-1]",
            value := getFSHValue i remaining },
          ([] : List LogEntry))) ∧
    (matchIdxPattern "constraint" key = none →
      matchIdxPattern "mapping" key = some (matched, n) →
      newMappingIndex inputJSON structDef n = none →
      processEntry inputJSON structDef path getFSHValue isFSHValueEmpty remaining i key =
        (some
          { path := path, caretPath := key, value := getFSHValue i remaining,
            fshComment := some (mappingWarnComment matched) },
          [(.warn, mappingWarnLog structDef.name path key)])) ∧
    (∀ el ms, matchIdxPattern "constraint" key = none →
      matchIdxPattern "mapping" key = some (matched, n) →
      snapshotNonempty structDef = true →
      findMatchingSnapshot (jGet inputJSON "id") structDef = some el →
      jGet el "mapping" = some (.arr ms) →
      ms.findIdx? (fun m => isEqualOpt (some m) (diffMappingAt inputJSON n)) = none →
      processEntry inputJSON structDef path getFSHValue isFSHValueEmpty remaining i key =
        (some
          { path := path, caretPath := strReplaceFirst key matched "mapping[-1]",
            value := getFSHValue i remaining },
          ([] : List LogEntry))) := by
  have heq := processEntry_eq inputJSON structDef path getFSHValue isFSHValueEmpty
    remaining i key hmt
  refine ⟨?_, ?_, ?_, ?_⟩
  · intro hcm hmm hni
    rw [fixConstraintBlock_warn inputJSON structDef path key _ matched n hcm hni,
      fixMappingBlock_nomatch inputJSON structDef path key _ hmm] at heq
    exact heq
  · intro el cs hcm hmm hsnap hfind hcs hidx
    have hni : newConstraintIndex inputJSON structDef n = some (-1) := by
      simp only [newConstraintIndex, hsnap, if_true, hfind, hcs, hidx]
    rw [fixConstraintBlock_rewrite inputJSON structDef path key _ matched n (-1) hcm hni,
      fixMappingBlock_nomatch inputJSON structDef path key _ hmm] at heq
    exact heq
  · intro hcm hmm hni
    rw [fixConstraintBlock_nomatch inputJSON structDef path key _ hcm,
      fixMappingBlock_warn inputJSON structDef path key _ matched n hmm hni] at heq
    exact heq
  · intro el ms hcm hmm hsnap hfind hms hidx
    have hni : newMappingIndex inputJSON structDef n = some (-1) := by
      simp only [newMappingIndex, hsnap, if_true, hfind, hms, hidx]
    rw [fixConstraintBlock_nomatch inputJSON structDef path key _ hcm,
      fixMappingBlock_rewrite inputJSON structDef path key _ matched n (-1) hmm hni] at heq
    exact heq

/-- Witness for the amended claim C1: with no snapshot at all, the entry
keeps `constraint[0]`, gains the warning comment, and one warning is
logged. -/
theorem claim_C1_amended_witness :
    processEntry (.obj [("id", .str "E"), ("constraint", .arr [.obj [("key", .str "k1")]])])
      ⟨"SD", none⟩ "E" (fun _ _ => "v") (fun s => s == "")
      [("constraint[0].key", .str "k1")] 0 "constraint[0].key" =
      (some
        { path := "E", caretPath := "constraint[0].key", value := "v",
          fshComment := some (constraintWarnComment "constraint[0]") },
        [(.warn, constraintWarnLog "SD" "E" "constraint[0].key")]) :=
  (claim_C1_amended (.obj [("id", .str "E"), ("constraint", .arr [.obj [("key", .str "k1")]])])
    ⟨"SD", none⟩ "E" (fun _ _ => "v") (fun s => s == "")
    [("constraint[0].key", .str "k1")] 0 "constraint[0].key" "constraint[0]" 0
    (by decide)).1 (by decide) (by decide) (by decide)

theorem flatMap_filterMap {α β γ : Type} (g : α → Option β) (h : β → List γ)
    (l : List α) :
    (l.filterMap g).flatMap h = l.flatMap (fun x => (g x).elim [] h) := by
  induction l with
  | nil => rfl
  | cons a l ih =>
      rw [List.filterMap_cons]
      cases hg : g a with
      | none => simp [hg, ih, Option.elim]
      | some b => simp [hg, ih, Option.elim]

theorem inlineInstanceUsedIn_eq_occurrences (ins : ExportableInstance)
    (files : FileMap) :
    inlineInstanceUsedIn ins files = inlineRefOccurrences ins.name files := by
  unfold inlineInstanceUsedIn inlineRefOccurrences
  refine congrArg _ (funext (fun fe => ?_))
  exact flatMap_filterMap Exportable.scannedRules _ fe.2

theorem invariantUsedIn_eq_occurrences (inv : ExportableInvariant)
    (files : FileMap) :
    invariantUsedIn inv files = invariantRefOccurrences inv.name files := by
  unfold invariantUsedIn invariantRefOccurrences
  refine congrArg _ (funext (fun fe => ?_))
  exact flatMap_filterMap _ _ fe.2

/-- Claim C2 (amended): at placement time the by-profile map holds the
profile groups, the shared instances group (with the non-inline and
earlier-placed inline instances) and nothing else — extension and other
category groups are set only afterwards.  An inline instance is placed in
group `g` exactly when the occurrence list over that map — one occurrence
per assignment- or caret-type instance-reference rule with value equal to
its name — is the singleton `[g]`; with zero occurrences, or two or more
(two references from one group included), it goes to the shared instances
group.  Invariants behave the same with obeys-rule occurrences over the
profile groups. -/
theorem claim_C2_amended :
    (∀ ins files, inlineInstanceUsedIn ins files = inlineRefOccurrences ins.name files) ∧
    (∀ ins files f, inlineRefOccurrences ins.name files = [f] →
      placeInline files ins = jsMapPush files f (.inst ins)) ∧
    (∀ ins files, (inlineRefOccurrences ins.name files = [] ∨
        2 ≤ (inlineRefOccurrences ins.name files).length) →
      placeInline files ins = jsMapPush files "instances.fsh" (.inst ins)) ∧
    (∀ inv files, invariantUsedIn inv files = invariantRefOccurrences inv.name files) ∧
    (∀ inv files f, invariantRefOccurrences inv.name files = [f] →
      placeInvariant files inv = jsMapPush files f (.invariant inv)) ∧
    (∀ inv files, (invariantRefOccurrences inv.name files = [] ∨
        2 ≤ (invariantRefOccurrences inv.name files).length) →
      placeInvariant files inv = jsMapPush files "invariants.fsh" (.invariant inv)) := by
  refine ⟨inlineInstanceUsedIn_eq_occurrences, ?_, ?_,
    invariantUsedIn_eq_occurrences, ?_, ?_⟩
  · intro ins files f h
    unfold placeInline
    rw [inlineInstanceUsedIn_eq_occurrences, h]
  · intro ins files h
    unfold placeInline
    rw [inlineInstanceUsedIn_eq_occurrences]
    rcases h with h | h
    · rw [h]
    · rcases hocc : inlineRefOccurrences ins.name files with - | ⟨a, - | ⟨b, rest⟩⟩
      · rfl
      · rw [hocc] at h
        simp at h
      · rfl
  · intro inv files f h
    unfold placeInvariant
    rw [invariantUsedIn_eq_occurrences, h]
  · intro inv files h
    unfold placeInvariant
    rw [invariantUsedIn_eq_occurrences]
    rcases h with h | h
    · rw [h]
    · rcases hocc : invariantRefOccurrences inv.name files with - | ⟨a, - | ⟨b, rest⟩⟩
      · rfl
      · rw [hocc] at h
        simp at h
      · rfl

/-- Witness for the amended claim C2: a single referencing rule in the
lone profile group places the inline instance in that group. -/
theorem claim_C2_amended_witness :
    placeInline [("P.fsh", [.profile ⟨"P", [.assignment ⟨true, "I"⟩]⟩])]
      ⟨"I", "Inline", "X", []⟩ =
    jsMapPush [("P.fsh", [.profile ⟨"P", [.assignment ⟨true, "I"⟩]⟩])] "P.fsh"
      (.inst ⟨"I", "Inline", "X", []⟩) :=
  claim_C2_amended.2.1 ⟨"I", "Inline", "X", []⟩
    [("P.fsh", [.profile ⟨"P", [.assignment ⟨true, "I"⟩]⟩])] "P.fsh" (by decide)

/-- Counterexample to claim C2 as stated: (a) an inline instance
referenced twice from a single profile group — one distinct referencing
group — is placed in the shared instances group, not that group; (b) an
inline instance referenced by exactly one extension group is also placed
in the shared instances group, because extension groups are not yet in
the map when inline instances are placed. -/
theorem claim_C2_counterexample :
    groupByProfile
      { profiles := [⟨"P", [.assignment ⟨true, "MyInst"⟩,
          .caret { path := "", value := "MyInst", isInstance := true }]⟩],
        instances := [⟨"MyInst", "Inline", "X", []⟩] } =
      [("P.fsh", [.profile ⟨"P", [.assignment ⟨true, "MyInst"⟩,
          .caret { path := "", value := "MyInst", isInstance := true }]⟩]),
        ("instances.fsh", [.inst ⟨"MyInst", "Inline", "X", []⟩]),
        ("invariants.fsh", []), ("aliases.fsh", []), ("extensions.fsh", []),
        ("valueSets.fsh", []), ("codeSystems.fsh", []), ("mappings.fsh", [])] ∧
    groupByProfile
      { extensions := [⟨"E", [.assignment ⟨true, "MyInst"⟩]⟩],
        instances := [⟨"MyInst", "Inline", "X", []⟩] } =
      [("instances.fsh", [.inst ⟨"MyInst", "Inline", "X", []⟩]),
        ("invariants.fsh", []), ("aliases.fsh", []),
        ("extensions.fsh", [.extension ⟨"E", [.assignment ⟨true, "MyInst"⟩]⟩]),
        ("valueSets.fsh", []), ("codeSystems.fsh", []), ("mappings.fsh", [])] := by
  constructor
  · decide
  · decide

theorem lookup_none_iff {β : Type} (k : String) :
    ∀ (l : List (String × β)), List.lookup k l = none ↔ ∀ e ∈ l, e.1 ≠ k
  | [] => by simp
  | (a, b) :: l => by
      by_cases hak : k == a
      · simp only [List.lookup, hak]
        constructor
        · intro h; cases h
        · intro h
          exact absurd (eq_of_beq hak).symm (h (a, b) (List.mem_cons_self _ _))
      · simp only [List.lookup, hak]
        rw [lookup_none_iff k l]
        constructor
        · intro h e he
          rcases List.mem_cons.mp he with rfl | he
          · simpa using fun hc => hak (by simp [hc])
          · exact h e he
        · intro h e he
          exact h e (List.mem_cons_of_mem _ he)

theorem lookup_some_mem {β : Type} (k : String) (v : β) :
    ∀ (l : List (String × β)), List.lookup k l = some v → (k, v) ∈ l
  | [] => by simp
  | (a, b) :: l => by
      by_cases hak : k == a
      · simp only [List.lookup, hak, Option.some.injEq]
        intro h
        subst h
        rw [show k = a from eq_of_beq hak]
        exact List.mem_cons_self _ _
      · simp only [List.lookup, hak]
        intro h
        exact List.mem_cons_of_mem _ (lookup_some_mem k v l h)

theorem lookup_eq_of_mem_nodup {β : Type} (k : String) (v : β)
    (l : List (String × β)) (hmem : (k, v) ∈ l) (hnodup : (l.map Prod.fst).Nodup) :
    List.lookup k l = some v := by
  induction l with
  | nil => cases hmem
  | cons e l ih =>
      obtain ⟨a, b⟩ := e
      rw [List.map_cons, List.nodup_cons] at hnodup
      rcases List.mem_cons.mp hmem with heq | hmem
      · injection heq with h1 h2
        subst h1; subst h2
        simp [List.lookup]
      · have hka : ¬(k == a) = true := by
          intro hk
          refine hnodup.1 ?_
          have hmk : k ∈ List.map Prod.fst l := List.mem_map_of_mem Prod.fst hmem
          rwa [eq_of_beq hk] at hmk
        simp only [List.lookup, hka]
        exact ih hmem hnodup.2

theorem lookup_filter_ne (key k : String) (l : List (String × JValue)) (h : key ≠ k) :
    List.lookup key (l.filter (fun f => f.1 ≠ k)) = List.lookup key l := by
  induction l with
  | nil => rfl
  | cons e l ih =>
      obtain ⟨a, b⟩ := e
      by_cases hak : a = k
      · subst hak
        rw [List.filter_cons_of_neg (by simp)]
        have hka : ¬(key == a) = true := by simpa using h
        simp only [List.lookup, hka]
        exact ih
      · rw [List.filter_cons_of_pos (by simpa using hak)]
        by_cases hka : (key == a) = true
        · simp [List.lookup, hka]
        · simp only [List.lookup, hka]
          exact ih

theorem jGet_jDelete_ne (v : JValue) (k key : String) (h : key ≠ k) :
    jGet (jDelete v k) key = jGet v key := by
  cases v with
  | obj fields => exact lookup_filter_ne key k fields h
  | null => rfl
  | bool b => rfl
  | num n => rfl
  | str s => rfl
  | arr items => rfl

theorem jGet_jDelete_self (v : JValue) (k : String) :
    jGet (jDelete v k) k = none := by
  cases v with
  | obj fields =>
      simp only [jGet, jDelete]
      rw [lookup_none_iff]
      intro e he hk
      rcases List.mem_filter.mp he with ⟨-, hne⟩
      exact absurd hk (by simpa using hne)
  | null => rfl
  | bool b => rfl
  | num n => rfl
  | str s => rfl
  | arr items => rfl

theorem str_ne_empty_iff (s : String) : s ≠ "" ↔ s.data ≠ [] := by
  simp [String.ext_iff]

theorem strAssoc (a b c : String) : (a ++ b) ++ c = a ++ (b ++ c) := by
  simp [String.ext_iff, String.data_append, List.append_assoc]

theorem strAppend_ne_empty_left (a b : String) (h : a ≠ "") : a ++ b ≠ "" := by
  rw [str_ne_empty_iff] at h ⊢
  rw [String.data_append]
  simp [h]

mutual
theorem flattenAt_shape : ∀ (v : JValue) (pre p : String) (x : JValue), pre ≠ "" →
    (p, x) ∈ flattenAt pre v → ∃ s, p = pre ++ s ∧ sepSuffix s
  | .null, pre, p, x, _, hmem => by simp [flattenAt] at hmem
  | .bool b, pre, p, x, _, hmem => by
      simp only [flattenAt, List.mem_singleton, Prod.mk.injEq] at hmem
      exact ⟨"", by simp [hmem.1], Or.inl rfl⟩
  | .num n, pre, p, x, _, hmem => by
      simp only [flattenAt, List.mem_singleton, Prod.mk.injEq] at hmem
      exact ⟨"", by simp [hmem.1], Or.inl rfl⟩
  | .str str, pre, p, x, _, hmem => by
      simp only [flattenAt, List.mem_singleton, Prod.mk.injEq] at hmem
      exact ⟨"", by simp [hmem.1], Or.inl rfl⟩
  | .arr items, pre, p, x, hpre, hmem => by
      obtain ⟨s, hs, hhead⟩ := flattenElems_shape items pre 0 p x hpre hmem
      exact ⟨s, hs, Or.inr (Or.inr hhead)⟩
  | .obj fields, pre, p, x, hpre, hmem => flattenFields_shape fields pre p x hpre hmem

theorem flattenElems_shape : ∀ (items : List JValue) (pre : String) (i : Nat)
    (p : String) (x : JValue), pre ≠ "" →
    (p, x) ∈ flattenElems pre i items → ∃ s, p = pre ++ s ∧ s.data.head? = some '['
  | [], pre, i, p, x, _, hmem => by simp [flattenElems] at hmem
  | v :: rest, pre, i, p, x, hpre, hmem => by
      rw [flattenElems] at hmem
      rcases List.mem_append.mp hmem with h | h
      · obtain ⟨t, ht, -⟩ := flattenAt_shape v (pre ++ "[" ++ toString i ++ "]") p x
          (strAppend_ne_empty_left _ _ (strAppend_ne_empty_left _ _
            (strAppend_ne_empty_left _ _ hpre))) h
        refine ⟨"[" ++ toString i ++ "]" ++ t, ?_, ?_⟩
        · rw [ht]
          simp [strAssoc]
        · rw [String.data_append, String.data_append]
          rfl
      · exact flattenElems_shape rest pre (i + 1) p x hpre h

theorem flattenFields_shape : ∀ (fields : List (String × JValue)) (pre p : String)
    (x : JValue), pre ≠ "" →
    (p, x) ∈ flattenFields pre fields → ∃ s, p = pre ++ s ∧ sepSuffix s
  | [], pre, p, x, _, hmem => by simp [flattenFields] at hmem
  | (k, v) :: rest, pre, p, x, hpre, hmem => by
      rw [flattenFields] at hmem
      rcases List.mem_append.mp hmem with h | h
      · rw [show dotJoin pre k = pre ++ "." ++ k from by rw [dotJoin, if_neg hpre]] at h
        obtain ⟨t, ht, -⟩ := flattenAt_shape v (pre ++ "." ++ k) p x
          (strAppend_ne_empty_left _ _ (strAppend_ne_empty_left _ _ hpre)) h
        refine ⟨"." ++ k ++ t, ?_, Or.inr (Or.inl ?_)⟩
        · rw [ht]
          simp [strAssoc]
        · rw [String.data_append, String.data_append]
          rfl
      · exact flattenFields_shape rest pre p x hpre h
end

theorem flattenFields_mem_decomp :
    ∀ (fields : List (String × JValue)) (pre p : String) (x : JValue),
      (p, x) ∈ flattenFields pre fields →
      ∃ kv ∈ fields, (p, x) ∈ flattenAt (dotJoin pre kv.1) kv.2
  | [], pre, p, x, hmem => by simp [flattenFields] at hmem
  | (k, v) :: rest, pre, p, x, hmem => by
      rw [flattenFields] at hmem
      rcases List.mem_append.mp hmem with h | h
      · exact ⟨(k, v), List.mem_cons_self _ _, h⟩
      · obtain ⟨kv, hkv, hm⟩ := flattenFields_mem_decomp rest pre p x h
        exact ⟨kv, List.mem_cons_of_mem _ hkv, hm⟩

theorem flattenFields_mem_of :
    ∀ (fields : List (String × JValue)) (pre p : String) (x : JValue)
      (kv : String × JValue), kv ∈ fields →
      (p, x) ∈ flattenAt (dotJoin pre kv.1) kv.2 → (p, x) ∈ flattenFields pre fields
  | [], pre, p, x, kv, hkv, _ => by cases hkv
  | (k, v) :: rest, pre, p, x, kv, hkv, hmem => by
      rw [flattenFields]
      rcases List.mem_cons.mp hkv with rfl | hkv
      · exact List.mem_append_left _ hmem
      · exact List.mem_append_right _
          (flattenFields_mem_of rest pre p x kv hkv hmem)

theorem sep_append_half (A B S T : List Char) (hlen : A.length ≤ B.length)
    (hB : ∀ c ∈ B, c ≠ '.' ∧ c ≠ '[')
    (hS : S = [] ∨ S.head? = some '.' ∨ S.head? = some '[')
    (heq : A ++ S = B ++ T) : A = B := by
  have hpre : A <+: B :=
    List.prefix_of_prefix_length_le ⟨S, heq⟩ ⟨T, rfl⟩ hlen
  obtain ⟨mid, hmid⟩ := hpre
  cases mid with
  | nil => simpa using hmid
  | cons c rest =>
      exfalso
      rw [← hmid, List.append_assoc] at heq
      have hS_eq : S = c :: (rest ++ T) := List.append_cancel_left heq
      have hcB : c ∈ B := by
        rw [← hmid]
        exact List.mem_append_right _ (List.mem_cons_self _ _)
      have := hB c hcB
      rcases hS with rfl | hh | hh
      · cases hS_eq
      · rw [hS_eq] at hh
        exact this.1 (by simpa using hh)
      · rw [hS_eq] at hh
        exact this.2 (by simpa using hh)

theorem sep_append_forcing (k key s t : String) (hk : cleanKey k) (hkey : cleanKey key)
    (hs : sepSuffix s) (ht : sepSuffix t) (heq : k ++ s = key ++ t) : k = key := by
  have hd : k.data ++ s.data = key.data ++ t.data := by
    rw [← String.data_append, ← String.data_append, heq]
  have hsl : s.data = [] ∨ s.data.head? = some '.' ∨ s.data.head? = some '[' := by
    rcases hs with rfl | h | h
    · exact Or.inl rfl
    · exact Or.inr (Or.inl h)
    · exact Or.inr (Or.inr h)
  have htl : t.data = [] ∨ t.data.head? = some '.' ∨ t.data.head? = some '[' := by
    rcases ht with rfl | h | h
    · exact Or.inl rfl
    · exact Or.inr (Or.inl h)
    · exact Or.inr (Or.inr h)
  have : k.data = key.data := by
    rcases le_total k.data.length key.data.length with hlen | hlen
    · exact sep_append_half k.data key.data s.data t.data hlen hkey.2 hsl hd
    · exact (sep_append_half key.data k.data t.data s.data hlen hk.2 htl hd.symm).symm
  exact String.ext this

theorem massageStep_fst_cases (acc : JValue × JValue) (k : String) :
    (massageStep acc k).1 = acc.1 ∨ (massageStep acc k).1 = jDelete acc.1 k := by
  unfold massageStep
  split
  · split
    · exact Or.inl rfl
    · dsimp only
      split_ifs
      · exact Or.inl rfl
      · exact Or.inr rfl
      · exact Or.inl rfl
  · exact Or.inl rfl

theorem massageStep_snd_cases (acc : JValue × JValue) (k : String) :
    (massageStep acc k).2 = acc.2 ∨ (massageStep acc k).2 = jDelete acc.2 k := by
  unfold massageStep
  split
  · split
    · exact Or.inl rfl
    · dsimp only
      split_ifs
      · exact Or.inr rfl
      · exact Or.inl rfl
      · exact Or.inl rfl
  · exact Or.inl rfl

theorem massageStep_get_ne (acc : JValue × JValue) (k key : String) (h : key ≠ k) :
    jGet (massageStep acc k).1 key = jGet acc.1 key ∧
      jGet (massageStep acc k).2 key = jGet acc.2 key := by
  constructor
  · rcases massageStep_fst_cases acc k with hc | hc <;> rw [hc]
    rw [jGet_jDelete_ne _ _ _ h]
  · rcases massageStep_snd_cases acc k with hc | hc <;> rw [hc]
    rw [jGet_jDelete_ne _ _ _ h]

theorem massage_foldl_get_ne :
    ∀ (keys : List String) (acc : JValue × JValue) (key : String), key ∉ keys →
      jGet (keys.foldl massageStep acc).1 key = jGet acc.1 key ∧
        jGet (keys.foldl massageStep acc).2 key = jGet acc.2 key
  | [], acc, key, _ => ⟨rfl, rfl⟩
  | k :: keys, acc, key, hnot => by
      rw [List.foldl_cons]
      have hne : key ≠ k := fun hc => hnot (hc ▸ List.mem_cons_self _ _)
      have hstep := massageStep_get_ne acc k key hne
      have hrest := massage_foldl_get_ne keys (massageStep acc k) key
        (fun hc => hnot (List.mem_cons_of_mem _ hc))
      exact ⟨hrest.1.trans hstep.1, hrest.2.trans hstep.2⟩

theorem xs_isEmpty_false {α : Type} (xs : List α) (h : xs ≠ []) : xs.isEmpty = false := by
  cases xs with
  | nil => exact absurd rfl h
  | cons a l => rfl

theorem massageStep_at_no_new (acc : JValue × JValue) (key : String) (xs : List JValue)
    (h1 : jGet acc.1 key = some (.arr xs)) (hne : xs ≠ [])
    (hnoNew : hasNewItemsFn xs (jGet acc.2 key) = false) :
    massageStep acc key = (jDelete acc.1 key, acc.2) := by
  unfold massageStep
  rw [h1]
  simp only [xs_isEmpty_false xs hne, Bool.false_eq_true, if_false, hnoNew,
    Bool.false_and, Bool.not_false, if_true]

theorem massageStep_at_ext (acc : JValue × JValue) (key : String) (xs : List JValue)
    (h1 : jGet acc.1 key = some (.arr xs)) (hne : xs ≠ [])
    (hnew : hasNewItemsFn xs (jGet acc.2 key) = true)
    (hext : (key == "extension" || key == "modifierExtension") = true) :
    massageStep acc key = (acc.1, jDelete acc.2 key) := by
  unfold massageStep
  rw [h1]
  simp only [xs_isEmpty_false xs hne, Bool.false_eq_true, if_false, hnew, hext,
    Bool.true_and, if_true]

theorem massageStep_at_keep (acc : JValue × JValue) (key : String) (xs : List JValue)
    (h1 : jGet acc.1 key = some (.arr xs)) (hne : xs ≠ [])
    (hnew : hasNewItemsFn xs (jGet acc.2 key) = true)
    (hext : (key == "extension" || key == "modifierExtension") = false) :
    massageStep acc key = acc := by
  unfold massageStep
  rw [h1]
  simp only [xs_isEmpty_false xs hne, Bool.false_eq_true, if_false, hnew, hext,
    Bool.true_and, Bool.not_true]

theorem jDelete_obj (fields : List (String × JValue)) (k : String) :
    jDelete (.obj fields) k = .obj (fields.filter (fun f => f.1 ≠ k)) := rfl

theorem massage_fields_sublist :
    ∀ (keys : List String) (acc : JValue × JValue) (f : List (String × JValue)),
      acc.1 = .obj f →
      ∃ fr, (keys.foldl massageStep acc).1 = .obj fr ∧ fr.Sublist f
  | [], acc, f, hobj => ⟨f, hobj, List.Sublist.refl f⟩
  | k :: keys, acc, f, hobj => by
      rw [List.foldl_cons]
      rcases massageStep_fst_cases acc k with hc | hc
      · obtain ⟨fr, h1, h2⟩ := massage_fields_sublist keys (massageStep acc k) f
          (hc.trans hobj)
        exact ⟨fr, h1, h2⟩
      · obtain ⟨fr, h1, h2⟩ := massage_fields_sublist keys (massageStep acc k)
          (f.filter (fun e => e.1 ≠ k)) (by rw [hc, hobj, jDelete_obj])
        exact ⟨fr, h1, h2.trans (List.filter_sublist f)⟩

theorem massage_parent_fields_sublist :
    ∀ (keys : List String) (acc : JValue × JValue) (f : List (String × JValue)),
      acc.2 = .obj f →
      ∃ fr, (keys.foldl massageStep acc).2 = .obj fr ∧ fr.Sublist f
  | [], acc, f, hobj => ⟨f, hobj, List.Sublist.refl f⟩
  | k :: keys, acc, f, hobj => by
      rw [List.foldl_cons]
      rcases massageStep_snd_cases acc k with hc | hc
      · obtain ⟨fr, h1, h2⟩ := massage_parent_fields_sublist keys (massageStep acc k) f
          (hc.trans hobj)
        exact ⟨fr, h1, h2⟩
      · obtain ⟨fr, h1, h2⟩ := massage_parent_fields_sublist keys (massageStep acc k)
          (f.filter (fun e => e.1 ≠ k)) (by rw [hc, hobj, jDelete_obj])
        exact ⟨fr, h1, h2.trans (List.filter_sublist f)⟩

theorem massage_get_key (sd par : JValue) (f : List (String × JValue)) (key : String)
    (xs : List JValue) (hobj : sd = .obj f) (hnodup : (f.map Prod.fst).Nodup)
    (hget : jGet sd key = some (.arr xs)) (hne : xs ≠ []) :
    (hasNewItemsFn xs (jGet par key) = false →
      jGet (massageArrays sd par).1 key = none ∧
        jGet (massageArrays sd par).2 key = jGet par key) ∧
    (hasNewItemsFn xs (jGet par key) = true →
      (key == "extension" || key == "modifierExtension") = true →
      jGet (massageArrays sd par).1 key = some (.arr xs) ∧
        jGet (massageArrays sd par).2 key = none) ∧
    (hasNewItemsFn xs (jGet par key) = true →
      (key == "extension" || key == "modifierExtension") = false →
      jGet (massageArrays sd par).1 key = some (.arr xs) ∧
        jGet (massageArrays sd par).2 key = jGet par key) := by
  have hkeys : jKeys sd = f.map Prod.fst := by rw [hobj]; rfl
  have hmemf : (key, JValue.arr xs) ∈ f := by
    apply lookup_some_mem
    rw [hobj] at hget
    exact hget
  have hkeymem : key ∈ f.map Prod.fst := List.mem_map_of_mem Prod.fst hmemf
  obtain ⟨l1, l2, hsplit⟩ := List.append_of_mem hkeymem
  have hnodup2 : (l1 ++ key :: l2).Nodup := hsplit ▸ hnodup
  have hnot1 : key ∉ l1 := by
    intro hc
    exact (List.disjoint_left.mp (List.nodup_append.mp hnodup2).2.2) hc
      (List.mem_cons_self _ _)
  have hnot2 : key ∉ l2 :=
    (List.nodup_cons.mp (List.nodup_append.mp hnodup2).2.1).1
  have hfold : massageArrays sd par =
      l2.foldl massageStep (massageStep (l1.foldl massageStep (sd, par)) key) := by
    rw [massageArrays, hkeys, hsplit, List.foldl_append, List.foldl_cons]
  have hmid := massage_foldl_get_ne l1 (sd, par) key hnot1
  have hmid1 : jGet (l1.foldl massageStep (sd, par)).1 key = some (.arr xs) :=
    hmid.1.trans hget
  refine ⟨?_, ?_, ?_⟩
  · intro hnoNew
    have hstep := massageStep_at_no_new (l1.foldl massageStep (sd, par)) key xs hmid1 hne
      (by rw [hmid.2]; exact hnoNew)
    have hrest := massage_foldl_get_ne l2
      (massageStep (l1.foldl massageStep (sd, par)) key) key hnot2
    rw [hfold]
    constructor
    · rw [hrest.1, hstep]
      exact jGet_jDelete_self _ _
    · rw [hrest.2, hstep]
      exact hmid.2
  · intro hnew hext
    have hstep := massageStep_at_ext (l1.foldl massageStep (sd, par)) key xs hmid1 hne
      (by rw [hmid.2]; exact hnew) hext
    have hrest := massage_foldl_get_ne l2
      (massageStep (l1.foldl massageStep (sd, par)) key) key hnot2
    rw [hfold]
    constructor
    · rw [hrest.1, hstep]
      exact hmid1
    · rw [hrest.2, hstep]
      exact jGet_jDelete_self _ _
  · intro hnew hext
    have hstep := massageStep_at_keep (l1.foldl massageStep (sd, par)) key xs hmid1 hne
      (by rw [hmid.2]; exact hnew) hext
    have hrest := massage_foldl_get_ne l2
      (massageStep (l1.foldl massageStep (sd, par)) key) key hnot2
    rw [hfold]
    constructor
    · rw [hrest.1, hstep]
      exact hmid1
    · rw [hrest.2, hstep]
      exact hmid.2

theorem emitSDEntry_emits (input : JValue) (config : Configuration)
    (flatSD flatParent : List (String × JValue))
    (getFSHValue : Nat → List (String × JValue) → String)
    (isFSHValueEmpty : String → Bool) (i : Nat) (q : String)
    (hcond : sdEmitCondition flatSD flatParent q = true)
    (hguard : (q == "url" && isStandardURL "StructureDefinition" config input) = false)
    (hval : isFSHValueEmpty (getFSHValue i flatSD) = false) :
    (emitSDEntry input config flatSD flatParent getFSHValue isFSHValueEmpty i q).1 =
      some { path := "", caretPath := q, value := getFSHValue i flatSD } := by
  unfold emitSDEntry
  simp only [hcond, if_true, hguard, Bool.false_eq_true, if_false, hval]

theorem processStructureDefinition_emits (input : JValue) (fishResult : Option JValue)
    (config : Configuration) (getFSHValue : Nat → List (String × JValue) → String)
    (isFSHValueEmpty : String → Bool) (q : String) (y : JValue)
    (hmem : (q, y) ∈ getPathValuePairs (prepareSDCopies input fishResult).1)
    (hcond : sdEmitCondition (getPathValuePairs (prepareSDCopies input fishResult).1)
      (getPathValuePairs (prepareSDCopies input fishResult).2) q = true)
    (hguard : (q == "url" && isStandardURL "StructureDefinition" config input) = false)
    (hval : ∀ i arr, isFSHValueEmpty (getFSHValue i arr) = false) :
    ∃ r ∈ (processStructureDefinition input fishResult config getFSHValue
      isFSHValueEmpty).1, r.caretPath = q := by
  obtain ⟨n, hn⟩ := List.mem_iff_getElem?.mp hmem
  refine ⟨{ path := "", caretPath := q,
            value := getFSHValue n
              (getPathValuePairs (prepareSDCopies input fishResult).1) },
    ?_, rfl⟩
  simp only [processStructureDefinition, List.mem_filterMap, List.mem_map]
  refine ⟨_, ⟨(n, (q, y)), List.mem_enum_iff_getElem?.mpr hn, rfl⟩, ?_⟩
  exact emitSDEntry_emits input config _ _ getFSHValue isFSHValueEmpty n q hcond hguard
    (hval n _)

theorem processResource_emits (input : JValue) (resourceType : String)
    (config : Configuration) (getFSHValue : Nat → List (String × JValue) → String)
    (isFSHValueEmpty : String → Bool) (q : String) (y : JValue)
    (hmem : (q, y) ∈ resourceFlatArray input resourceType)
    (hguard : (q == "url" && isStandardURL resourceType config input) = false)
    (hval : ∀ i arr, isFSHValueEmpty (getFSHValue i arr) = false) :
    ∃ r ∈ (processResource input resourceType config getFSHValue isFSHValueEmpty).1,
      r.caretPath = q := by
  obtain ⟨n, hn⟩ := List.mem_iff_getElem?.mp hmem
  refine ⟨{ path := "", caretPath := q,
            value := getFSHValue n (resourceFlatArray input resourceType) },
    ?_, rfl⟩
  simp only [processResource, List.mem_filterMap, List.mem_map]
  refine ⟨_, ⟨(n, (q, y)), List.mem_enum_iff_getElem?.mpr hn, rfl⟩, ?_⟩
  simp only [hguard, Bool.false_eq_true, if_false, hval n]

theorem getPathValuePairs_obj (f : List (String × JValue)) :
    getPathValuePairs (.obj f) = flattenFields "" f := rfl

theorem dotJoin_empty (k : String) : dotJoin "" k = k := rfl

theorem flattenAt_arr_eq (pre : String) (xs : List JValue) :
    flattenAt pre (.arr xs) = flattenElems pre 0 xs := rfl

/-- Every path produced for an object with clean field names is that of
some field: `p = k ++ s` with `k` a field name and `s` a separator-led
suffix, together with the originating field. -/
theorem obj_path_decomp (fr : List (String × JValue)) (p : String) (z : JValue)
    (hclean : ∀ kv ∈ fr, cleanKey kv.1)
    (hmem : (p, z) ∈ flattenFields "" fr) :
    ∃ kv ∈ fr, ∃ s, p = kv.1 ++ s ∧ sepSuffix s ∧
      (p, z) ∈ flattenAt kv.1 kv.2 := by
  obtain ⟨kv, hkv, hm⟩ := flattenFields_mem_decomp fr "" p z hmem
  rw [dotJoin_empty] at hm
  obtain ⟨s, hs, hsep⟩ := flattenAt_shape kv.2 kv.1 p z (hclean kv hkv).1 hm
  exact ⟨kv, hkv, s, hs, hsep, hm⟩

/-- No path of an object lacking the (clean) property `key` lies under
`key`. -/
theorem obj_no_path_under (fr : List (String × JValue)) (key : String)
    (hclean : ∀ kv ∈ fr, cleanKey kv.1) (hkey : cleanKey key)
    (hnone : List.lookup key fr = none) :
    ∀ e ∈ flattenFields "" fr, ¬ underKey key e.1 := by
  intro e hmem hunder
  obtain ⟨t, ht, hsept⟩ := hunder
  obtain ⟨kv, hkv, s, hs, hsep, -⟩ := obj_path_decomp fr e.1 e.2 hclean hmem
  have : kv.1 = key := sep_append_forcing kv.1 key s t (hclean kv hkv) hkey hsep hsept
    (hs ▸ ht)
  exact (lookup_none_iff key fr).mp hnone kv hkv this

/-- Claim C4: the array reconciliation of the with-inheritance entry
point, stated against the resource and parent copies entering the
massaging loop (`sdPreMassage` / `parentPreMassage`; for a property
outside the ignored and cleared lists these hold the resource's and
parent's own values).  For a non-empty top-level array property `key` of
the resource copy with clean (FHIR-style) property names on both copies:
(1) if every item of the array is present by deep equality in the parent
copy's array (no new items), no statement is emitted for any leaf at or
under `key`; (2) if there are new items and `key` is `extension` or
`modifierExtension`, a statement is emitted for every leaf of the entire
resource array; (3) if there are new items and `key` is any other
property, every emitted statement under `key` is for a changed or added
leaf — the parent copy lacks its path or the two values differ. -/
theorem claim_C4_array_reconciliation (input : JValue) (fishResult : Option JValue)
    (config : Configuration) (getFSHValue : Nat → List (String × JValue) → String)
    (isFSHValueEmpty : String → Bool) (key : String) (xs : List JValue)
    (sdFields pFields : List (String × JValue))
    (hsobj : sdPreMassage input = .obj sdFields)
    (hsnodup : (sdFields.map Prod.fst).Nodup)
    (hsclean : ∀ kv ∈ sdFields, cleanKey kv.1)
    (hpobj : parentPreMassage input fishResult = .obj pFields)
    (hpclean : ∀ kv ∈ pFields, cleanKey kv.1)
    (hget : jGet (sdPreMassage input) key = some (.arr xs))
    (hne : xs ≠ []) :
    (hasNewItemsFn xs (jGet (parentPreMassage input fishResult) key) = false →
      ∀ r ∈ (processStructureDefinition input fishResult config getFSHValue
        isFSHValueEmpty).1, ¬ underKey key r.caretPath) ∧
    (hasNewItemsFn xs (jGet (parentPreMassage input fishResult) key) = true →
      (key == "extension" || key == "modifierExtension") = true →
      (∀ i arr, isFSHValueEmpty (getFSHValue i arr) = false) →
      ∀ q z, (q, z) ∈ flattenAt key (.arr xs) →
        ∃ r ∈ (processStructureDefinition input fishResult config getFSHValue
          isFSHValueEmpty).1, r.caretPath = q) ∧
    (hasNewItemsFn xs (jGet (parentPreMassage input fishResult) key) = true →
      (key == "extension" || key == "modifierExtension") = false →
      ∀ r ∈ (processStructureDefinition input fishResult config getFSHValue
        isFSHValueEmpty).1, underKey key r.caretPath →
        (List.lookup r.caretPath
            (getPathValuePairs (prepareSDCopies input fishResult).2) = none ∨
          List.lookup r.caretPath
              (getPathValuePairs (prepareSDCopies input fishResult).1) ≠
            List.lookup r.caretPath
              (getPathValuePairs (prepareSDCopies input fishResult).2))) := by
  have hkeyclean : cleanKey key := by
    refine hsclean (key, .arr xs) (lookup_some_mem key _ sdFields ?_)
    rw [hsobj] at hget
    exact hget
  have hmg := massage_get_key (sdPreMassage input) (parentPreMassage input fishResult)
    sdFields key xs hsobj hsnodup hget hne
  obtain ⟨fr, hfr, hsub⟩ := massage_fields_sublist (jKeys (sdPreMassage input))
    (sdPreMassage input, parentPreMassage input fishResult) sdFields hsobj
  obtain ⟨pr, hpr, hpsub⟩ := massage_parent_fields_sublist (jKeys (sdPreMassage input))
    (sdPreMassage input, parentPreMassage input fishResult) pFields hpobj
  have hM1 : (prepareSDCopies input fishResult).1 = .obj fr := hfr
  have hM2 : (prepareSDCopies input fishResult).2 = .obj pr := hpr
  have hfrclean : ∀ kv ∈ fr, cleanKey kv.1 := fun kv hkv => hsclean kv (hsub.subset hkv)
  have hprclean : ∀ kv ∈ pr, cleanKey kv.1 := fun kv hkv => hpclean kv (hpsub.subset hkv)
  have hfrnodup : (fr.map Prod.fst).Nodup :=
    List.Nodup.sublist (List.Sublist.map Prod.fst hsub) hsnodup
  refine ⟨?_, ?_, ?_⟩
  · -- part 1: no new items
    intro hnoNew r hr hunder
    have hdel : jGet (prepareSDCopies input fishResult).1 key = none := (hmg.1 hnoNew).1
    obtain ⟨iv, hiv, hsome⟩ := processStructureDefinition_mem_rules input fishResult
      config getFSHValue isFSHValueEmpty r hr
    obtain ⟨-, -, hrule, -⟩ := emitSDEntry_some _ _ _ _ _ _ _ _ _ hsome
    have hmem : (iv.2.1, iv.2.2) ∈
        getPathValuePairs (prepareSDCopies input fishResult).1 := by
      have := enum_snd_mem _ _ hiv
      simpa using this
    rw [hM1, getPathValuePairs_obj] at hmem
    have hnone : List.lookup key fr = none := by
      rw [hM1] at hdel
      exact hdel
    refine obj_no_path_under fr key hfrclean hkeyclean hnone (iv.2.1, iv.2.2) hmem ?_
    rw [show (iv.2.1, iv.2.2).1 = r.caretPath from by rw [hrule]]
    exact hunder
  · -- part 2: new items, extension carrier
    intro hnew hext hval q z hqz
    have hkeep : jGet (prepareSDCopies input fishResult).1 key = some (.arr xs) :=
      (hmg.2.1 hnew hext).1
    have hpdel : jGet (prepareSDCopies input fishResult).2 key = none :=
      (hmg.2.1 hnew hext).2
    obtain ⟨s, hqs, hshead⟩ := flattenElems_shape xs key 0 q z hkeyclean.1
      (by rw [← flattenAt_arr_eq]; exact hqz)
    have hmemSD : (q, z) ∈ getPathValuePairs (prepareSDCopies input fishResult).1 := by
      rw [hM1, getPathValuePairs_obj]
      refine flattenFields_mem_of fr "" q z (key, .arr xs) ?_ ?_
      · refine lookup_some_mem key _ fr ?_
        rw [hM1] at hkeep
        exact hkeep
      · rw [dotJoin_empty]
        exact hqz
    have hplookup : List.lookup q
        (getPathValuePairs (prepareSDCopies input fishResult).2) = none := by
      rw [hM2, getPathValuePairs_obj]
      rw [lookup_none_iff]
      intro e hmem heq
      have hnone : List.lookup key pr = none := by
        rw [hM2] at hpdel
        exact hpdel
      refine obj_no_path_under pr key hprclean hkeyclean hnone e hmem ?_
      rw [heq, hqs]
      exact ⟨s, rfl, Or.inr (Or.inr hshead)⟩
    have hcond : sdEmitCondition
        (getPathValuePairs (prepareSDCopies input fishResult).1)
        (getPathValuePairs (prepareSDCopies input fishResult).2) q = true := by
      unfold sdEmitCondition
      rw [hplookup]
      rfl
    have hqurl : (q == "url") = false := by
      refine beq_eq_false_iff_ne.mpr ?_
      intro hq
      have hqd : q.data = key.data ++ s.data := by
        rw [hqs, String.data_append]
      have hslen : 1 ≤ s.data.length := by
        cases hsd : s.data with
        | nil => rw [hsd] at hshead; cases hshead
        | cons c rest => simp
      rcases Bool.or_eq_true_iff.mp hext with hk | hk
      · rw [hq, show key = "extension" from eq_of_beq hk] at hqd
        have hlen := congrArg List.length hqd
        simp at hlen
      · rw [hq, show key = "modifierExtension" from eq_of_beq hk] at hqd
        have hlen := congrArg List.length hqd
        simp at hlen
    exact processStructureDefinition_emits input fishResult config getFSHValue
      isFSHValueEmpty q z hmemSD hcond (by rw [hqurl]; rfl) hval
  · -- part 3: new items, ordinary array
    intro hnew hext r hr hunder
    have hkeep : jGet (prepareSDCopies input fishResult).1 key = some (.arr xs) :=
      (hmg.2.2 hnew hext).1
    obtain ⟨iv, hiv, hsome⟩ := processStructureDefinition_mem_rules input fishResult
      config getFSHValue isFSHValueEmpty r hr
    obtain ⟨hcond, -, hrule, -⟩ := emitSDEntry_some _ _ _ _ _ _ _ _ _ hsome
    have hq : r.caretPath = iv.2.1 := by rw [hrule]
    have hmem : (iv.2.1, iv.2.2) ∈
        getPathValuePairs (prepareSDCopies input fishResult).1 := by
      have := enum_snd_mem _ _ hiv
      simpa using this
    rw [hM1, getPathValuePairs_obj] at hmem
    obtain ⟨kv, hkv, s, hs, hsep, hat⟩ := obj_path_decomp fr iv.2.1 iv.2.2 hfrclean hmem
    obtain ⟨t, ht, hsept⟩ := hunder
    have hkveq : kv.1 = key := by
      refine sep_append_forcing kv.1 key s t (hfrclean kv hkv) hkeyclean hsep hsept ?_
      rw [← hs, ← hq, ht]
    have hkv2 : kv.2 = .arr xs := by
      have hl : List.lookup key fr = some kv.2 := by
        rw [← hkveq]
        exact lookup_eq_of_mem_nodup kv.1 kv.2 fr (by simpa using hkv) hfrnodup
      rw [hM1] at hkeep
      have hkeep2 : List.lookup key fr = some (JValue.arr xs) := hkeep
      rw [hkeep2] at hl
      injection hl with h
      exact h.symm
    obtain ⟨u, hqu, huhead⟩ := flattenElems_shape xs key 0 iv.2.1 iv.2.2 hkeyclean.1
      (by
        rw [← flattenAt_arr_eq, ← hkv2, ← hkveq]
        exact hat)
    have hstatus : (iv.2.1 == "status") = false := by
      refine beq_eq_false_iff_ne.mpr ?_
      intro hqst
      have : '[' ∈ iv.2.1.data := by
        rw [hqu, String.data_append]
        refine List.mem_append_right _ ?_
        cases hud : u.data with
        | nil => rw [hud] at huhead; cases huhead
        | cons c rest =>
            rw [hud] at huhead
            injection huhead with hc
            rw [hc]
            exact List.mem_cons_self _ _
      rw [hqst] at this
      simp at this
    rw [hq]
    unfold sdEmitCondition at hcond
    rw [hstatus, Bool.false_and, Bool.or_false, Bool.or_eq_true_iff] at hcond
    rcases hcond with hc | hc
    · exact Or.inl (Option.isNone_iff_eq_none.mp hc)
    · refine Or.inr ?_
      intro heq
      rw [Bool.not_eq_eq_eq_not, Bool.not_true] at hc
      rw [isEqualOpt, beq_eq_false_iff_ne] at hc
      exact hc heq

/-- Witness for claim C4: resource `extension` array `[x, y]` against
parent `[x]` — the whole array is re-emitted, here shown for the leaf
`extension[1]` (the inherited `x` leaf `extension[0]` is emitted too). -/
theorem claim_C4_array_reconciliation_witness :
    ∃ r ∈ (processStructureDefinition (.obj [("extension", .arr [.str "x", .str "y"])])
      (some (.obj [("extension", .arr [.str "x"])])) ⟨"c"⟩ (fun _ _ => "v")
      (fun s => s == "")).1, r.caretPath = "extension[1]" :=
  (claim_C4_array_reconciliation (.obj [("extension", .arr [.str "x", .str "y"])])
    (some (.obj [("extension", .arr [.str "x"])])) ⟨"c"⟩ (fun _ _ => "v")
    (fun s => s == "") "extension" [.str "x", .str "y"]
    [("extension", .arr [.str "x", .str "y"])] [("extension", .arr [.str "x"])]
    (by decide) (by decide) (by decide) (by decide) (by decide) (by decide)
    (by decide)).2.1 (by decide) (by decide) (fun _ _ => rfl) "extension[1]" (.str "y")
    (by decide)

theorem jsStrictEq_some_str (y : JValue) (a : String) :
    jsStrictEq (some y) (some (.str a)) = true ↔ y = .str a := by
  cases y <;> simp [jsStrictEq]

/-- Claim C5: in the with-inheritance flat diff, a statement is emitted
for a leaf path `q` of the massaged resource copy exactly when the
massaged parent copy lacks that path, or the two values differ, or the
path is `status` with a value other than `'active'` — stated for leaves
other than `url` (whose canonical-URL suppression is a separate rule),
for a resolver that yields non-empty values, and for a resource copy with
distinct leaf paths.  In particular status `draft` equal to the parent's
`draft` still yields a status statement, while status `active` equal to
the parent's yields none. -/
theorem claim_C5_diff_condition (input : JValue) (fishResult : Option JValue)
    (config : Configuration) (getFSHValue : Nat → List (String × JValue) → String)
    (isFSHValueEmpty : String → Bool) (q : String) (y : JValue)
    (hval : ∀ i arr, isFSHValueEmpty (getFSHValue i arr) = false)
    (hnodup : ((getPathValuePairs (prepareSDCopies input fishResult).1).map
      Prod.fst).Nodup)
    (hmem : (q, y) ∈ getPathValuePairs (prepareSDCopies input fishResult).1)
    (hurl : q ≠ "url") :
    (∃ r ∈ (processStructureDefinition input fishResult config getFSHValue
        isFSHValueEmpty).1, r.caretPath = q) ↔
      (List.lookup q (getPathValuePairs (prepareSDCopies input fishResult).2) = none ∨
        List.lookup q (getPathValuePairs (prepareSDCopies input fishResult).2) ≠ some y ∨
        (q = "status" ∧ y ≠ .str "active")) := by
  have hlookupSD : List.lookup q
      (getPathValuePairs (prepareSDCopies input fishResult).1) = some y :=
    lookup_eq_of_mem_nodup q y _ hmem hnodup
  have hguard : (q == "url" &&
      isStandardURL "StructureDefinition" config input) = false := by
    rw [beq_eq_false_iff_ne.mpr hurl]
    rfl
  have hcond_iff : sdEmitCondition
      (getPathValuePairs (prepareSDCopies input fishResult).1)
      (getPathValuePairs (prepareSDCopies input fishResult).2) q = true ↔
      (List.lookup q (getPathValuePairs (prepareSDCopies input fishResult).2) = none ∨
        List.lookup q (getPathValuePairs (prepareSDCopies input fishResult).2) ≠ some y ∨
        (q = "status" ∧ y ≠ .str "active")) := by
    unfold sdEmitCondition
    rw [hlookupSD]
    simp only [Bool.or_eq_true, Bool.and_eq_true, Option.isNone_iff_eq_none,
      Bool.not_eq_true', beq_iff_eq, isEqualOpt, beq_eq_false_iff_ne, ne_eq]
    constructor
    · intro h
      rcases h with (h | h) | ⟨h1, h2⟩
      · exact Or.inl h
      · exact Or.inr (Or.inl (fun hc => h hc.symm))
      · refine Or.inr (Or.inr ⟨h1, fun hc => ?_⟩)
        rw [hc] at h2
        simp [jsStrictEq] at h2
    · intro h
      rcases h with h | h | ⟨h1, h2⟩
      · exact Or.inl (Or.inl h)
      · exact Or.inl (Or.inr (fun hc => h hc.symm))
      · refine Or.inr ⟨h1, ?_⟩
        rw [show (jsStrictEq (some y) (some (.str "active")) = false) ↔
          ¬(jsStrictEq (some y) (some (.str "active")) = true) from by simp]
        rw [jsStrictEq_some_str]
        exact h2
  rw [← hcond_iff]
  constructor
  · intro ⟨r, hr, hpath⟩
    obtain ⟨iv, hiv, hsome⟩ := processStructureDefinition_mem_rules input fishResult
      config getFSHValue isFSHValueEmpty r hr
    obtain ⟨hcond, -, hrule, -⟩ := emitSDEntry_some _ _ _ _ _ _ _ _ _ hsome
    rw [← hpath, hrule]
    exact hcond
  · intro hcond
    exact processStructureDefinition_emits input fishResult config getFSHValue
      isFSHValueEmpty q y hmem hcond hguard hval

/-- Witness for claim C5: status `draft` equal to the parent's `draft`
still yields a status statement. -/
theorem claim_C5_diff_condition_witness :
    ∃ r ∈ (processStructureDefinition (.obj [("status", .str "draft")])
      (some (.obj [("status", .str "draft")])) ⟨"c"⟩ (fun _ _ => "v")
      (fun s => s == "")).1, r.caretPath = "status" :=
  (claim_C5_diff_condition (.obj [("status", .str "draft")])
    (some (.obj [("status", .str "draft")])) ⟨"c"⟩ (fun _ _ => "v") (fun s => s == "")
    "status" (.str "draft") (fun _ _ => rfl) (by decide) (by decide) (by decide)).mpr
    (Or.inr (Or.inr ⟨rfl, by decide⟩))

/-- Claim C6 (amended): a statement for the `url` leaf is never emitted —
by either the with-inheritance or the without-inheritance entry point —
when the resource's url equals `<canonical-base>/<ResourceKind>/<id>`.
For any other url value, the without-inheritance entry point emits a url
statement whenever the url leaf survives filtering and the resolver
yields non-empty values; the with-inheritance entry point emits one only
when additionally the flat-diff condition holds for `url` (the parent
copy lacks it or the values differ) — with an identical inherited url,
for instance under the self-as-parent fallback, no url statement is
emitted. -/
theorem claim_C6_url_suppression :
    (∀ input fishResult config getFSHValue isFSHValueEmpty r,
      isStandardURL "StructureDefinition" config input = true →
      r ∈ (processStructureDefinition input fishResult config getFSHValue
        isFSHValueEmpty).1 → r.caretPath ≠ "url") ∧
    (∀ input resourceType config getFSHValue isFSHValueEmpty r,
      isStandardURL resourceType config input = true →
      r ∈ (processResource input resourceType config getFSHValue isFSHValueEmpty).1 →
      r.caretPath ≠ "url") ∧
    (∀ input resourceType config getFSHValue isFSHValueEmpty y,
      ("url", y) ∈ resourceFlatArray input resourceType →
      isStandardURL resourceType config input = false →
      (∀ i arr, isFSHValueEmpty (getFSHValue i arr) = false) →
      ∃ r ∈ (processResource input resourceType config getFSHValue isFSHValueEmpty).1,
        r.caretPath = "url") ∧
    (∀ input fishResult config getFSHValue isFSHValueEmpty y,
      ("url", y) ∈ getPathValuePairs (prepareSDCopies input fishResult).1 →
      sdEmitCondition (getPathValuePairs (prepareSDCopies input fishResult).1)
        (getPathValuePairs (prepareSDCopies input fishResult).2) "url" = true →
      isStandardURL "StructureDefinition" config input = false →
      (∀ i arr, isFSHValueEmpty (getFSHValue i arr) = false) →
      ∃ r ∈ (processStructureDefinition input fishResult config getFSHValue
        isFSHValueEmpty).1, r.caretPath = "url") := by
  refine ⟨?_, ?_, ?_, ?_⟩
  · intro input fishResult config getFSHValue isFSHValueEmpty r hstd hr hurl
    obtain ⟨iv, hiv, hsome⟩ := processStructureDefinition_mem_rules input fishResult
      config getFSHValue isFSHValueEmpty r hr
    obtain ⟨-, hguard, hrule, -⟩ := emitSDEntry_some _ _ _ _ _ _ _ _ _ hsome
    refine hguard ?_
    have : iv.2.1 = "url" := by rw [← hurl, hrule]
    rw [this, hstd]
    rfl
  · intro input resourceType config getFSHValue isFSHValueEmpty r hstd hr hurl
    obtain ⟨iv, hiv, hguard, hrule, -⟩ := processResource_mem_rules input resourceType
      config getFSHValue isFSHValueEmpty r hr
    refine hguard ?_
    have : iv.2.1 = "url" := by rw [← hurl, hrule]
    rw [this, hstd]
    rfl
  · intro input resourceType config getFSHValue isFSHValueEmpty y hmem hstd hval
    exact processResource_emits input resourceType config getFSHValue isFSHValueEmpty
      "url" y hmem (by rw [hstd]; rfl) hval
  · intro input fishResult config getFSHValue isFSHValueEmpty y hmem hcond hstd hval
    exact processStructureDefinition_emits input fishResult config getFSHValue
      isFSHValueEmpty "url" y hmem hcond (by rw [hstd]; rfl) hval

/-- Witness for the amended claim C6: a non-standard url in a CodeSystem
yields a url statement. -/
theorem claim_C6_url_suppression_witness :
    ∃ r ∈ (processResource (.obj [("url", .str "X")]) "CodeSystem" ⟨"c"⟩
      (fun _ _ => "v") (fun s => s == "")).1, r.caretPath = "url" :=
  claim_C6_url_suppression.2.2.1 (.obj [("url", .str "X")]) "CodeSystem" ⟨"c"⟩
    (fun _ _ => "v") (fun s => s == "") (.str "X") (by decide) (by decide)
    (fun _ _ => rfl)

/-- Counterexample to claim C6 as stated: in the with-inheritance entry
point, a resource whose unresolved parent is substituted by the resource
itself has a non-standard url equal to its parent copy's url, so no url
statement is emitted even though the url is not the canonical pattern. -/
theorem claim_C6_counterexample :
    isStandardURL "StructureDefinition" ⟨"https://example.org/fhir"⟩
      (.obj [("id", .str "my"), ("url", .str "X")]) = false ∧
    (processStructureDefinition (.obj [("id", .str "my"), ("url", .str "X")]) none
      ⟨"https://example.org/fhir"⟩ (fun _ _ => "v") (fun s => s == "")).1 = [] := by
  constructor
  · decide
  · decide
